import Mathlib

/-!
# Verification of the Remhos monotonicity/flux-correction core (remhos.cpp)

This file is a shallow embedding, in exact rational arithmetic, of the
algorithmic core of `src/remhos.cpp`:

* `ComputeFCTSolution` (the Zalesak-style FCT blend), modelled per element;
* `ComputeDiscreteUpwindingMatrix`;
* `DofInfo::ComputeVertexBounds` and the bounds-contributor map construction
  of `DofInfo::GetVertexBoundsMap`;
* `FE_Evolution::NeumannSolve`;
* the residual-distribution denominators of
  `FE_Evolution::ComputeLowOrderSolution`;
* `DofInfo::FillNeighborDofs` (all three dimensions);
* `DofInfo::GetCommonElem`;
* `FE_Evolution::LinearFluxLumping` and the two low-order branches of
  `FE_Evolution::ComputeLowOrderSolution`;
* `Assembly::ComputeFluxTerms`.

C++ `double` values are modelled as `ℚ` (exact arithmetic); the C++
`numeric_limits<double>::infinity()` initialisers of running min/max folds are
modelled by `WithTop ℚ` / `WithBot ℚ` with `⊤` / `⊥` as the initial
accumulator.  External MFEM services (mesh adjacency queries, quadrature data,
assembled matrices, basis-function values) enter as parameters, mirroring the
spec's external-interface boundary.
-/

namespace Remhos

/-- The `eps = 1.E-15` regularizer used by `ComputeFCTSolution` and by the
residual-distribution branch of `ComputeLowOrderSolution` (exact rational
counterpart of the literal `1.E-15`). -/
def eps15 : ℚ := 1 / 10 ^ 15

/-! ## ComputeFCTSolution (remhos.cpp lines 1755-1807), per element

The element loop of `ComputeFCTSolution` treats each element independently:
all quantities below are element-local, with local dof index `j < nd`
standing for the global index `k*nd+j`.  The per-dof bounds `ximin`/`ximax`
are the values `xi_min(dofInd)`/`xi_max(dofInd)` refreshed by
`dofs.ComputeVertexBounds(x, dofInd)` inside the loop; they are taken as
function parameters here and tied to the `ComputeVertexBounds` fold
(`cvbMin`/`cvbMax` below) by hypotheses in the theorems. -/

/-- `uClipped(j) = min(xi_max, max(x + dt*yH, xi_min))` (lines 1779-1780). -/
def uClipped (ximin ximax x yH : ℕ → ℚ) (dt : ℚ) (j : ℕ) : ℚ :=
  min (ximax j) (max (x j + dt * yH j) (ximin j))

/-- `fClipped(j) = lumpedM/dt * (uClipped(j) - (x + dt*yL))` before rescaling
(lines 1782-1783). -/
def fClipped0 (lumpedM ximin ximax x yH yL : ℕ → ℚ) (dt : ℚ) (j : ℕ) : ℚ :=
  lumpedM j / dt * (uClipped ximin ximax x yH dt j - (x j + dt * yL j))

/-- `sumPos = Σ_j max(fClipped(j), 0)` (line 1785). -/
def sumPosF (nd : ℕ) (f : ℕ → ℚ) : ℚ := ∑ j ∈ Finset.range nd, max (f j) 0

/-- `sumNeg = Σ_j min(fClipped(j), 0)` (line 1786). -/
def sumNegF (nd : ℕ) (f : ℕ → ℚ) : ℚ := ∑ j ∈ Finset.range nd, min (f j) 0

/-- The Zalesak rescaling of one flux (lines 1789-1798): the second `if`
tests the value possibly already modified by the first one, exactly as the
C++ mutates `fClipped(j)` in place. -/
def fctRescale (sumPos sumNeg fj : ℚ) : ℚ :=
  let f1 := if sumPos + sumNeg > eps15 ∧ fj > eps15
            then fj * (-sumNeg / sumPos) else fj
  if sumPos + sumNeg < -eps15 ∧ f1 < -eps15
  then f1 * (-sumPos / sumNeg) else f1

/-- The rescaled antidiffusive flux of local dof `j`. -/
def fClippedFinal (nd : ℕ) (lumpedM ximin ximax x yH yL : ℕ → ℚ) (dt : ℚ)
    (j : ℕ) : ℚ :=
  fctRescale (sumPosF nd (fClipped0 lumpedM ximin ximax x yH yL dt))
             (sumNegF nd (fClipped0 lumpedM ximin ximax x yH yL dt))
             (fClipped0 lumpedM ximin ximax x yH yL dt j)

/-- The FCT rate `y = yL + fClipped/lumpedM` (line 1804). -/
def yFCT (nd : ℕ) (lumpedM ximin ximax x yH yL : ℕ → ℚ) (dt : ℚ)
    (j : ℕ) : ℚ :=
  yL j + fClippedFinal nd lumpedM ximin ximax x yH yL dt j / lumpedM j

/-! ## DofInfo::ComputeVertexBounds (lines 259-269)

`xi_min(dofInd)` starts at `+∞` and is folded with `min` over
`xe_min(map_for_bounds[dofInd][i])`; dually for `xi_max`.  The `±∞`
initialisers are modelled by `⊤ : WithTop ℚ` and `⊥ : WithBot ℚ`. -/

/-- Running `min` over a list of rationals starting from `+∞`. -/
def foldMinT (l : List ℚ) : WithTop ℚ :=
  l.foldl (fun (a : WithTop ℚ) (v : ℚ) => min a ↑v) ⊤

/-- Running `max` over a list of rationals starting from `-∞`. -/
def foldMaxB (l : List ℚ) : WithBot ℚ :=
  l.foldl (fun (a : WithBot ℚ) (v : ℚ) => max a ↑v) ⊥

/-- `xi_min(d)` after `ComputeVertexBounds`: the min of `xe_min(e)` over the
contributor list of dof `d` (lines 261, 264, 267). -/
def cvbMin (xemin : ℕ → ℚ) (contrib : List ℕ) : WithTop ℚ :=
  foldMinT (contrib.map xemin)

/-- `xi_max(d)` after `ComputeVertexBounds`: the max of `xe_max(e)` over the
contributor list of dof `d` (lines 262, 264, 266). -/
def cvbMax (xemax : ℕ → ℚ) (contrib : List ℕ) : WithBot ℚ :=
  foldMaxB (contrib.map xemax)

/-- Totalised list minimum (head-seeded fold); agrees with `foldMinT` on
nonempty lists. -/
def qMin : List ℚ → ℚ
  | [] => 0
  | v :: l => l.foldl min v

/-- Totalised list maximum (head-seeded fold); agrees with `foldMaxB` on
nonempty lists. -/
def qMax : List ℚ → ℚ
  | [] => 0
  | v :: l => l.foldl max v

/-! ## DofInfo::GetVertexBoundsMap (lines 349-533)

`map_for_bounds` is a map `dof ↦ vector<int>` filled exclusively by
`push_back`.  We model the construction as the ordered list of insertion
events `(dof, element)`: for each element `k`, first the owner insertions
(lines 362-366), then the face-neighbor insertions (lines 382-395), then the
dimension-specific corner/edge "diagonal neighbor" insertions
(lines 397-531).  The latter depend on `GetCommonElem` over the mesh
topology and only ever append further events, so they are abstracted as a
per-element event-list parameter `cornerEvents`; every theorem below is
universally quantified over it and hence covers the concrete 1-D (no corner
events), 2-D and 3-D constructions. -/

/-- Owner insertions for element `k`: `map_for_bounds[k*nd+i].push_back(k)`
for every local dof `i` (lines 362-366). -/
def ownEvents (nd k : ℕ) : List (ℕ × ℕ) :=
  (List.range nd).map (fun i => (k * nd + i, k))

/-- Face-neighbor insertions for element `k` (lines 382-395): for every
boundary slot `i` whose neighbor element is not exterior, push the neighbor
onto every boundary dof `k*nd+BdrDofs(j,i)` of that slot. -/
def faceEvents (nd numBdrs numDofs : ℕ) (BdrDofs : ℕ → ℕ → ℕ)
    (nbrElem : ℕ → ℕ → ℤ) (k : ℕ) : List (ℕ × ℕ) :=
  (List.range numBdrs).flatMap (fun i =>
    if nbrElem k i < 0 then []
    else (List.range numDofs).map
      (fun j => (k * nd + BdrDofs j i, (nbrElem k i).toNat)))

/-- All insertion events of `GetVertexBoundsMap`, in program order. -/
def boundsEvents (ne nd numBdrs numDofs : ℕ) (BdrDofs : ℕ → ℕ → ℕ)
    (nbrElem : ℕ → ℕ → ℤ) (cornerEvents : ℕ → List (ℕ × ℕ)) :
    List (ℕ × ℕ) :=
  (List.range ne).flatMap (fun k =>
    ownEvents nd k ++ faceEvents nd numBdrs numDofs BdrDofs nbrElem k
      ++ cornerEvents k)

/-- `map_for_bounds[d]`: the elements pushed onto dof `d`, in order. -/
def mapForBounds (ne nd numBdrs numDofs : ℕ) (BdrDofs : ℕ → ℕ → ℕ)
    (nbrElem : ℕ → ℕ → ℤ) (cornerEvents : ℕ → List (ℕ × ℕ)) (d : ℕ) :
    List ℕ :=
  ((boundsEvents ne nd numBdrs numDofs BdrDofs nbrElem cornerEvents).filter
    (fun ev => ev.1 = d)).map Prod.snd

/-! ## ComputeDiscreteUpwindingMatrix (lines 127-152)

The CSR traversal is modelled on the stored-entry level: `S i j = true` iff
the (finalized, symmetric) sparsity pattern of `K` stores entry `(i,j)`;
`K i j` is the stored value (`0` off the pattern).  For every stored entry
the code sets `D_ij = K_ij + d_ij` with
`d_ij = fmax(fmax(0,-K_ij),-K_ji)` (the symmetric entry reached through
`smap`); each pair is written twice with the same value since `d_ij` is
symmetric in `i,j`.  After traversing row `i` it overwrites the diagonal
with `D_ii = K_ii - Σ_{stored j≠i} d_ij` (line 150). -/

/-- `dij = fmax(fmax(0.0,-kij),-kji)` (line 145). -/
def dCoeff (K : ℕ → ℕ → ℚ) (i j : ℕ) : ℚ :=
  max (max 0 (-K i j)) (-K j i)

/-- The matrix `D` produced by `ComputeDiscreteUpwindingMatrix`. -/
def upwindD (n : ℕ) (S : ℕ → ℕ → Bool) (K : ℕ → ℕ → ℚ) (i j : ℕ) : ℚ :=
  if i = j then
    K i i - ∑ j' ∈ (Finset.range n).filter (fun j' => j' ≠ i ∧ S i j' = true),
      dCoeff K i j'
  else if S i j then K i j + dCoeff K i j else 0

/-! ## FE_Evolution::NeumannSolve (lines 1458-1481)

`x` starts at `0`; each of at most `20` iterations computes `y = M x - f`,
returns if `‖y‖₂ ≤ 1e-4`, and otherwise updates `x_i -= y_i / lumpedM_i`.
The Euclidean-norm test `‖y‖₂ ≤ tol` is modelled by the equivalent exact
comparison `Σ y_i² ≤ tol²` (both sides are nonnegative). -/

/-- The absolute tolerance `abs_tol = 1.e-4` (line 1462). -/
def neumannTol : ℚ := 1 / 10 ^ 4

/-- The residual vector `y = M x - f` (lines 1469-1470). -/
def residVec (n : ℕ) (M : ℕ → ℕ → ℚ) (f x : ℕ → ℚ) (i : ℕ) : ℚ :=
  (∑ j ∈ Finset.range n, M i j * x j) - f i

/-- Squared Euclidean norm of the residual (models `resid = y.Norml2()`). -/
def residSq (n : ℕ) (M : ℕ → ℕ → ℚ) (f x : ℕ → ℚ) : ℚ :=
  ∑ i ∈ Finset.range n, residVec n M f x i ^ 2

/-- One Richardson/Jacobi update `x_i -= (M x - f)_i / lumpedM_i`
(lines 1476-1479). -/
def neumannStep (n : ℕ) (M : ℕ → ℕ → ℚ) (lumpedM f : ℕ → ℚ)
    (x : ℕ → ℚ) : ℕ → ℚ :=
  fun i => x i - residVec n M f x i / lumpedM i

/-- The iteration loop with `fuel` remaining iterations (lines 1467-1480). -/
def neumannIter (n : ℕ) (M : ℕ → ℕ → ℚ) (lumpedM f : ℕ → ℚ) :
    ℕ → (ℕ → ℚ) → (ℕ → ℚ)
  | 0, x => x
  | fuel + 1, x =>
      if residSq n M f x ≤ neumannTol ^ 2 then x
      else neumannIter n M lumpedM f fuel (neumannStep n M lumpedM f x)

/-- `NeumannSolve(f, x)`: `x = 0`, then at most `max_iter = 20` iterations. -/
def neumannSolve (n : ℕ) (M : ℕ → ℕ → ℚ) (lumpedM f : ℕ → ℚ) : ℕ → ℚ :=
  neumannIter n M lumpedM f 20 (fun _ => 0)

/-! ## Residual-distribution denominators
(`ComputeLowOrderSolution`, RD branch, lines 1609-1719)

All quantities are element-local for element `k` with `nd` dofs; subcell
`m` has `ndS = numDofsSubcell` dofs reached through `Sub2Ind`. -/

/-- The element's dof values `x(k*nd+j)`, `j < nd` (the values folded into
`xe_min/xe_max` in lines 1613-1618). -/
def elemVals (x : ℕ → ℚ) (k nd : ℕ) : List ℚ :=
  (List.range nd).map (fun j => x (k * nd + j))

/-- `xSum = Σ_j x(k*nd+j)` (line 1618). -/
def xSumEl (x : ℕ → ℚ) (k nd : ℕ) : ℚ :=
  ∑ j ∈ Finset.range nd, x (k * nd + j)

/-- `sumWeightsP = nd*xe_max(k) - xSum + eps` (line 1626). -/
def sumWeightsP (x : ℕ → ℚ) (k nd : ℕ) : ℚ :=
  nd * qMax (elemVals x k nd) - xSumEl x k nd + eps15

/-- `sumWeightsN = nd*xe_min(k) - xSum - eps` (line 1627). -/
def sumWeightsN (x : ℕ → ℚ) (k nd : ℕ) : ℚ :=
  nd * qMin (elemVals x k nd) - xSumEl x k nd - eps15

/-- `rhoP = Σ_j max(0, z(k*nd+j))` (line 1621). -/
def rhoP (z : ℕ → ℚ) (k nd : ℕ) : ℚ :=
  ∑ j ∈ Finset.range nd, max 0 (z (k * nd + j))

/-- `rhoN = Σ_j min(0, z(k*nd+j))` (line 1622). -/
def rhoN (z : ℕ → ℚ) (k nd : ℕ) : ℚ :=
  ∑ j ∈ Finset.range nd, min 0 (z (k * nd + j))

/-- The dof values of subcell `m`, `x(k*nd + Sub2Ind(m,i))` (line 1656). -/
def subcellVals (x : ℕ → ℚ) (k nd : ℕ) (Sub2Ind : ℕ → ℕ → ℕ) (ndS m : ℕ) :
    List ℚ :=
  (List.range ndS).map (fun i => x (k * nd + Sub2Ind m i))

/-- `sumWeightsSubcellP(m) = numDofsSubcell*xMaxSubcell(m) - xSum + eps`
(lines 1662-1663). -/
def sumWeightsSubcellP (x : ℕ → ℚ) (k nd : ℕ) (Sub2Ind : ℕ → ℕ → ℕ)
    (ndS m : ℕ) : ℚ :=
  ndS * qMax (subcellVals x k nd Sub2Ind ndS m)
    - (∑ i ∈ Finset.range ndS, x (k * nd + Sub2Ind m i)) + eps15

/-- `sumWeightsSubcellN(m) = numDofsSubcell*xMinSubcell(m) - xSum - eps`
(lines 1664-1665). -/
def sumWeightsSubcellN (x : ℕ → ℚ) (k nd : ℕ) (Sub2Ind : ℕ → ℕ → ℕ)
    (ndS m : ℕ) : ℚ :=
  ndS * qMin (subcellVals x k nd Sub2Ind ndS m)
    - (∑ i ∈ Finset.range ndS, x (k * nd + Sub2Ind m i)) - eps15

/-- The subcell Galerkin fluctuation
`fluct = Σ_i SubcellWeights(k,m,i)*x(k*nd+Sub2Ind(m,i))` (line 1657);
`W m i` is `SubcellWeights(k,m,i)` of the current element. -/
def subFluct (x : ℕ → ℚ) (k nd : ℕ) (Sub2Ind : ℕ → ℕ → ℕ)
    (W : ℕ → ℕ → ℚ) (ndS m : ℕ) : ℚ :=
  ∑ i ∈ Finset.range ndS, W m i * x (k * nd + Sub2Ind m i)

/-- `sumFluctSubcellP = Σ_m max(0, fluct(m))` (lines 1667, 1669). -/
def sumFluctSubcellP (x : ℕ → ℚ) (k nd : ℕ) (Sub2Ind : ℕ → ℕ → ℕ)
    (W : ℕ → ℕ → ℚ) (ndS numSub : ℕ) : ℚ :=
  ∑ m ∈ Finset.range numSub, max 0 (subFluct x k nd Sub2Ind W ndS m)

/-- `sumFluctSubcellN = Σ_m min(0, fluct(m))` (lines 1668, 1670). -/
def sumFluctSubcellN (x : ℕ → ℚ) (k nd : ℕ) (Sub2Ind : ℕ → ℕ → ℕ)
    (W : ℕ → ℕ → ℚ) (ndS numSub : ℕ) : ℚ :=
  ∑ m ∈ Finset.range numSub, min 0 (subFluct x k nd Sub2Ind W ndS m)

/-! ## DofInfo::FillNeighborDofs (lines 541-635)

`nbrElem k i` is the element across boundary slot `i` of element `k`
(`Trans->Elem1No == k ? Trans->Elem2No : Trans->Elem1No`), `-1` on an
exterior slot, an external mesh query.  `BdrDofs` is the reference-element
boundary-dof table.  Note that in 1-D and 3-D the code computes
`nbr*nd + offset` without guarding `nbr < 0`. -/

/-- 1-D case (lines 554-563): `NbrDof(k,i,0) = nbr*nd + BdrDofs(0,(i+1)%2)`,
with no exterior guard. -/
def nbrDof1D (nd : ℕ) (BdrDofs : ℕ → ℕ → ℕ) (nbrElem : ℕ → ℕ → ℤ)
    (k i : ℕ) : ℤ :=
  nbrElem k i * nd + BdrDofs 0 ((i + 1) % 2)

/-- 2-D case (lines 565-593): on an interior slot, the common face is looked
up among the neighbor's edges and the matching boundary dof is taken under
the reversed orientation (`BdrDofs(numDofs-1-j, ind)`); an exterior slot
yields `-1`.  `elemEdges e i` models `GetElementEdges` (edge ids per slot). -/
def nbrDof2D (nd numBdrs numDofs : ℕ) (BdrDofs : ℕ → ℕ → ℕ)
    (nbrElem : ℕ → ℕ → ℤ) (elemEdges : ℕ → ℕ → ℕ) (k i j : ℕ) : ℤ :=
  let nbr := nbrElem k i
  if 0 ≤ nbr then
    let ind := (List.range numBdrs).findIdx
      (fun ind => elemEdges nbr.toNat ind = elemEdges k i)
    nbr * nd + BdrDofs (numDofs - 1 - j) ind
  else -1

/-- 3-D case (lines 595-633): per-slot index arithmetic on a uniformly
ordered cube mesh, again with no exterior guard. -/
def nbrDof3D (nd p : ℕ) (nbrElem : ℕ → ℕ → ℤ) (k i j : ℕ) : ℤ :=
  let nbr := nbrElem k i
  if i = 0 then nbr * nd + ((p + 1) * (p + 1) * p + j)
  else if i = 1 then
    nbr * nd + (j / (p + 1) * ((p + 1) * (p + 1)) + (p + 1) * p + j % (p + 1))
  else if i = 2 then nbr * nd + j * (p + 1)
  else if i = 3 then
    nbr * nd + (j / (p + 1) * ((p + 1) * (p + 1)) + j % (p + 1))
  else if i = 4 then nbr * nd + ((j + 1) * (p + 1) - 1)
  else nbr * nd + j

/-! ## DofInfo::GetCommonElem (lines 279-344)

The mesh queries are parameters: `faceOf el i` is the `i`-th boundary entity
id of element `el` (`GetElementVertices`/`Edges`/`Faces`), and
`faceElems fid = (Elem1No, Elem2No)` is the face-to-elements resolution
(`GetFaceElementTransformations`).  The neighbor lists `NbrEl1`, `NbrEl2`
(lines 306-314) and the double loop with the `found` flag (lines 316-343)
are translated directly; `mfem_error` is an `Except.error`. -/

/-- `NbrEl[i]`: the element on the other side of boundary `i` of `el`
(lines 309-313). -/
def nbrOfSlot (faceOf : ℤ → ℕ → ℕ) (faceElems : ℕ → ℤ × ℤ) (el : ℤ)
    (i : ℕ) : ℤ :=
  let f := faceElems (faceOf el i)
  if f.1 ≠ el then f.1 else f.2

/-- One step of the double loop, processing slot pair `(i,j)`: skip
exterior entries, record the first common neighbor distinct from `el`,
fail on a second one (lines 316-338). -/
def gceStep (faceOf : ℤ → ℕ → ℕ) (faceElems : ℕ → ℤ × ℤ)
    (el el1 el2 : ℤ) (st : Option ℤ) (ij : ℕ × ℕ) : Except Unit (Option ℤ) :=
  let n1 := nbrOfSlot faceOf faceElems el1 ij.1
  let n2 := nbrOfSlot faceOf faceElems el2 ij.2
  if n1 < 0 then Except.ok st
  else if n2 < 0 then Except.ok st
  else if n1 = n2 ∧ n1 ≠ el then
    match st with
    | none => Except.ok (some n1)
    | some _ => Except.error ()
  else Except.ok st

/-- The slot pairs `(i,j)` in loop order. -/
def gcePairs (numBdrs : ℕ) : List (ℕ × ℕ) :=
  (List.range numBdrs).flatMap (fun i =>
    (List.range numBdrs).map (fun j => (i, j)))

/-- `GetCommonElem(el, el1, el2)`: `-1` when `min(el1,el2) < 0` (line 281),
otherwise run the double loop; `ok c` is a normal return, `error ()` is the
fatal `mfem_error("Found multiple common neighbor elements.")`. -/
def getCommonElem (numBdrs : ℕ) (faceOf : ℤ → ℕ → ℕ)
    (faceElems : ℕ → ℤ × ℤ) (el el1 el2 : ℤ) : Except Unit ℤ :=
  if min el1 el2 < 0 then Except.ok (-1)
  else
    match (gcePairs numBdrs).foldlM (gceStep faceOf faceElems el el1 el2)
        none with
    | Except.error e => Except.error e
    | Except.ok none => Except.ok (-1)
    | Except.ok (some c) => Except.ok c

/-- Whether the double loop registers a common neighbor at slot pair `ij`:
both neighbor entries are non-exterior, equal, and distinct from `el`. -/
def gceMatchB (faceOf : ℤ → ℕ → ℕ) (faceElems : ℕ → ℤ × ℤ)
    (el el1 el2 : ℤ) (ij : ℕ × ℕ) : Bool :=
  decide (0 ≤ nbrOfSlot faceOf faceElems el1 ij.1) &&
  decide (0 ≤ nbrOfSlot faceOf faceElems el2 ij.2) &&
  decide (nbrOfSlot faceOf faceElems el1 ij.1
    = nbrOfSlot faceOf faceElems el2 ij.2) &&
  decide (nbrOfSlot faceOf faceElems el1 ij.1 ≠ el)

/-- The slot pairs on which the double loop registers a common neighbor. -/
def gceMatches (numBdrs : ℕ) (faceOf : ℤ → ℕ → ℕ) (faceElems : ℕ → ℤ × ℤ)
    (el el1 el2 : ℤ) : List (ℕ × ℕ) :=
  (gcePairs numBdrs).filter (gceMatchB faceOf faceElems el el1 el2)

/-! ## FE_Evolution::LinearFluxLumping (lines 1483-1514) and the two
low-order branches of ComputeLowOrderSolution (lines 1516-1721)

`NbrDof`, `BdrDofs`, `bdrInt`, the assembled matrices and vectors are
parameters.  `y(dofInd) +=` accumulations are modelled as sums of the
individually added contributions (for a fixed slot the target dofs
`k*nd+BdrDofs(i,slot)` are pairwise distinct, so the accumulations are
independent). -/

/-- `xDiff(j) = xNeighbor - x(k*nd+BdrDofs(j,slot))` with
`xNeighbor = 0` when `NbrDof(k,slot,j) < 0` (lines 1491-1500, including the
exterior `xNeighbor = 0.` approximation marked TODO in the source). -/
def xDiffF (nd : ℕ) (BdrDofs : ℕ → ℕ → ℕ) (NbrDof : ℕ → ℕ → ℕ → ℤ)
    (x : ℕ → ℚ) (k slot j : ℕ) : ℚ :=
  (if NbrDof k slot j < 0 then 0 else x (NbrDof k slot j).toNat)
    - x (k * nd + BdrDofs j slot)

/-- The amount `LinearFluxLumping(k, nd, slot, x, y, alpha)` adds to
`y(d)` (lines 1502-1513). -/
def fluxLumpContrib (nd numDofs : ℕ) (BdrDofs : ℕ → ℕ → ℕ)
    (NbrDof : ℕ → ℕ → ℕ → ℤ) (bdrInt : ℕ → ℕ → ℕ → ℚ) (x alpha : ℕ → ℚ)
    (k slot d : ℕ) : ℚ :=
  ∑ i ∈ Finset.range numDofs,
    if k * nd + BdrDofs i slot = d then
      ∑ j ∈ Finset.range numDofs,
        bdrInt k slot (i * numDofs + j)
          * (xDiffF nd BdrDofs NbrDof x k slot i
             + (xDiffF nd BdrDofs NbrDof x k slot j
                - xDiffF nd BdrDofs NbrDof x k slot i)
               * alpha (BdrDofs i slot) * alpha (BdrDofs j slot))
    else 0

/-- Total flux-lumping contribution to `y(d)` over all elements and slots. -/
def fluxLumpTotal (ne nd numBdrs numDofs : ℕ) (BdrDofs : ℕ → ℕ → ℕ)
    (NbrDof : ℕ → ℕ → ℕ → ℤ) (bdrInt : ℕ → ℕ → ℕ → ℚ) (x alpha : ℕ → ℚ)
    (d : ℕ) : ℚ :=
  ∑ k ∈ Finset.range ne, ∑ slot ∈ Finset.range numBdrs,
    fluxLumpContrib nd numDofs BdrDofs NbrDof bdrInt x alpha k slot d

/-- Discrete-upwinding branch (lines 1522-1567): `y = D·x + b`, plus flux
lumping at `alpha = 0` when the optimized (PDU) scheme is active, divided by
the lumped mass.  `n = ne*nd` is the global dof count. -/
def lowOrderPDU (ne nd numBdrs numDofs : ℕ) (BdrDofs : ℕ → ℕ → ℕ)
    (NbrDof : ℕ → ℕ → ℕ → ℤ) (bdrInt : ℕ → ℕ → ℕ → ℚ)
    (D : ℕ → ℕ → ℚ) (b lumpedM x : ℕ → ℚ) (opt : Bool) (d : ℕ) : ℚ :=
  ((∑ j ∈ Finset.range (ne * nd), D d j * x j) + b d
    + (if opt then
        fluxLumpTotal ne nd numBdrs numDofs BdrDofs NbrDof bdrInt x
          (fun _ => 0) d
       else 0)) / lumpedM d

/-- The Galerkin residual `z = K x` (line 1581). -/
def zVec (n : ℕ) (K : ℕ → ℕ → ℚ) (x : ℕ → ℚ) (j : ℕ) : ℚ :=
  ∑ j' ∈ Finset.range n, K j j' * x j'

/-- `nodalWeightsP(loc)` accumulated over the subcells containing local dof
`loc` (lines 1673-1686, eq. (10)). -/
def nodalWeightsP (x : ℕ → ℚ) (k nd : ℕ) (Sub2Ind : ℕ → ℕ → ℕ)
    (W : ℕ → ℕ → ℚ) (ndS numSub loc : ℕ) : ℚ :=
  ∑ m ∈ Finset.range numSub, ∑ i ∈ Finset.range ndS,
    if Sub2Ind m i = loc then
      max 0 (subFluct x k nd Sub2Ind W ndS m)
        * ((qMax (subcellVals x k nd Sub2Ind ndS m) - x (k * nd + loc))
           / sumWeightsSubcellP x k nd Sub2Ind ndS m)
    else 0

/-- `nodalWeightsN(loc)` (lines 1673-1686, eq. (11)). -/
def nodalWeightsN (x : ℕ → ℚ) (k nd : ℕ) (Sub2Ind : ℕ → ℕ → ℕ)
    (W : ℕ → ℕ → ℚ) (ndS numSub loc : ℕ) : ℚ :=
  ∑ m ∈ Finset.range numSub, ∑ i ∈ Finset.range ndS,
    if Sub2Ind m i = loc then
      min 0 (subFluct x k nd Sub2Ind W ndS m)
        * ((qMin (subcellVals x k nd Sub2Ind ndS m) - x (k * nd + loc))
           / sumWeightsSubcellN x k nd Sub2Ind ndS m)
    else 0

/-- `gamma = 10.` (line 1575). -/
def rdGamma : ℚ := 10

/-- The positive weight of local dof `i` in element `k` (lines 1692,
1695-1699): the element-level weight, blended with the subcell correction
when the optimized subcell scheme is active. -/
def rdWeightP (x z : ℕ → ℚ) (k nd : ℕ) (Sub2Ind : ℕ → ℕ → ℕ)
    (W : ℕ → ℕ → ℚ) (ndS numSub : ℕ) (opt : Bool) (i : ℕ) : ℚ :=
  let base := (qMax (elemVals x k nd) - x (k * nd + i)) / sumWeightsP x k nd
  if opt then
    let sfp := sumFluctSubcellP x k nd Sub2Ind W ndS numSub
    let aux := rdGamma / (rhoP z k nd + eps15)
    base * (1 - min (aux * sfp) 1)
      + min aux (1 / (sfp + eps15))
        * nodalWeightsP x k nd Sub2Ind W ndS numSub i
  else base

/-- The negative weight of local dof `i` (lines 1693, 1701-1703). -/
def rdWeightN (x z : ℕ → ℚ) (k nd : ℕ) (Sub2Ind : ℕ → ℕ → ℕ)
    (W : ℕ → ℕ → ℚ) (ndS numSub : ℕ) (opt : Bool) (i : ℕ) : ℚ :=
  let base := (qMin (elemVals x k nd) - x (k * nd + i)) / sumWeightsN x k nd
  if opt then
    let sfn := sumFluctSubcellN x k nd Sub2Ind W ndS numSub
    let aux := rdGamma / (rhoN z k nd - eps15)
    base * (1 - min (aux * sfn) 1)
      + max aux (1 / (sfn - eps15))
        * nodalWeightsN x k nd Sub2Ind W ndS numSub i
  else base

/-- Residual-distribution branch (lines 1569-1721): `y = b`, flux lumping at
`alpha = 0` on every element and slot, then for the dof `d = k*nd+i` the
monotone redistribution `Σ_j weightP·z_j [z_j > eps] + weightN·z_j
[z_j < -eps]` (lines 1706-1717), divided by the lumped mass. -/
def lowOrderRD (ne nd numBdrs numDofs : ℕ) (BdrDofs : ℕ → ℕ → ℕ)
    (NbrDof : ℕ → ℕ → ℕ → ℤ) (bdrInt : ℕ → ℕ → ℕ → ℚ)
    (K : ℕ → ℕ → ℚ) (b lumpedM x : ℕ → ℚ) (Sub2Ind : ℕ → ℕ → ℕ)
    (W : ℕ → ℕ → ℕ → ℚ) (ndS numSub : ℕ) (opt : Bool) (d : ℕ) : ℚ :=
  let k := d / nd
  let z := zVec (ne * nd) K x
  (b d
    + fluxLumpTotal ne nd numBdrs numDofs BdrDofs NbrDof bdrInt x
        (fun _ => 0) d
    + ∑ j ∈ Finset.range nd,
        if z (k * nd + j) > eps15 then
          rdWeightP x z k nd Sub2Ind (W k) ndS numSub opt (d % nd)
            * z (k * nd + j)
        else if z (k * nd + j) < -eps15 then
          rdWeightN x z k nd Sub2Ind (W k) ndS numSub opt (d % nd)
            * z (k * nd + j)
        else 0) / lumpedM d

/-! ## Assembly::ComputeFluxTerms (lines 801-874)

A face quadrature point carries its rule weight `w = ip.weight`, the face
transformation weight `fw = Trans->Face->Weight()`, the normal velocity
`vdotn = vval·nor` (with the unit outward normal of the current element),
and the boundary shape values `shape` evaluated at the point.  The global
`exec_mode` selects the sign convention (lines 850-860): transport keeps
`vn = min(0, v·n)`, remap keeps `vn = -max(0, v·n)`. -/

structure QuadPt where
  w : ℚ
  fw : ℚ
  vdotn : ℚ
  shape : ℕ → ℚ

/-- `vn` as selected by `exec_mode` (0 = transport, else remap). -/
def vnOf (execMode : ℕ) (vdotn : ℚ) : ℚ :=
  if execMode = 0 then min 0 vdotn else -(max 0 vdotn)

/-- The entry `bdrInt(k, BdrID, i*numDofs+j)` after accumulating the whole
quadrature rule on top of `init` (lines 862-872):
`bdrInt -= (w·fw·shape(BdrDofs(i))·vn)·shape(BdrDofs(j))` per point. -/
def fluxTermsEntry (execMode : ℕ) (qps : List QuadPt) (bdrDof : ℕ → ℕ)
    (init : ℚ) (i j : ℕ) : ℚ :=
  init + (qps.map (fun q =>
    -(q.w * q.fw * q.shape (bdrDof i) * vnOf execMode q.vdotn
      * q.shape (bdrDof j)))).sum

/-! ## Concrete scenario: 1-D mesh of two order-1 elements on [0,1]

Transport mode, velocity `v = 1`, Bernstein (= linear) basis, `ne = 2`,
`nd = 2`, `numBdrs = 2`, `numDofs = 1`, global dofs `0,1 | 2,3`.  The
external data below are the exact values MFEM assembles for this mesh:

* `BdrDofs(0,0) = 0` (left vertex), `BdrDofs(0,1) = p = 1` (right vertex);
* element 0 has an exterior left slot and element 1 an exterior right slot
  (`twoNbr`), or both slots wrap around on the periodic variant (`perNbr`);
* the element convection matrix (`ConvectionIntegrator(velocity, -1.0)` on
  an interval of length 1/2): `K^e = [[1/2, -1/2], [1/2, -1/2]]`
  (zero row sums), block-diagonal in `twoK`;
* `bdrInt` is `1` on each element's inflow slot (`v·n = -1`, unit vertex
  shape value) and `0` on its outflow slot;
* the lumped mass is `∫ φ_i = 1/4` per dof;
* the boundary load `b` is zero, the state is uniform `x ≡ 1`. -/

/-- Boundary-dof table of the 1-D order-1 reference segment. -/
def segBdrDofs : ℕ → ℕ → ℕ := fun _ slot => if slot = 0 then 0 else 1

/-- Face adjacency of the two-element mesh (exterior = `-1`). -/
def twoNbr : ℕ → ℕ → ℤ := fun k i =>
  if k = 0 then (if i = 0 then -1 else 1) else (if i = 0 then 0 else -1)

/-- Face adjacency of the periodic two-element mesh. -/
def perNbr : ℕ → ℕ → ℤ := fun k _ => if k = 0 then 1 else 0

/-- Neighbor-dof table of the two-element mesh, as built by
`FillNeighborDofs` (1-D case). -/
def twoNbrDof : ℕ → ℕ → ℕ → ℤ := fun k slot _ =>
  nbrDof1D 2 segBdrDofs twoNbr k slot

/-- Neighbor-dof table of the periodic variant. -/
def perNbrDof : ℕ → ℕ → ℕ → ℤ := fun k slot _ =>
  nbrDof1D 2 segBdrDofs perNbr k slot

/-- `bdrInt(k, slot, 0)`: `1` on the inflow (left) slot of each element,
`0` on the outflow slot, for `v = 1` (same on both mesh variants). -/
def twoBdrInt : ℕ → ℕ → ℕ → ℚ := fun _ slot _ => if slot = 0 then 1 else 0

/-- The block-diagonal element convection matrix (zero row sums). -/
def twoK : ℕ → ℕ → ℚ := fun d j =>
  if d / 2 = j / 2 then (if j % 2 = 0 then 1/2 else -1/2) else 0

/-- The (block-diagonal) sparsity pattern of `twoK`: symmetric, diagonal
stored. -/
def twoS : ℕ → ℕ → Bool := fun d j => d / 2 = j / 2

/-- The discrete-upwinding matrix of the scenario, through
`ComputeDiscreteUpwindingMatrix` (the case most favorable to the claim:
zero row sums). -/
def twoD : ℕ → ℕ → ℚ := upwindD 4 twoS twoK

/-- Lumped mass `1/4` per dof. -/
def twoLumpedM : ℕ → ℚ := fun _ => 1/4

/-- The uniform state. -/
def oneVec : ℕ → ℚ := fun _ => 1

/-- Zero boundary load. -/
def zeroVec : ℕ → ℚ := fun _ => 0

/-! ## Concrete data for the discrete-upwinding diagonal formula

A 2×2 fully stored matrix with a nonzero off-diagonal row sum. -/

/-- `K = [[0, 1], [-1, 0]]`. -/
def cexK : ℕ → ℕ → ℚ := fun i j =>
  if i = 0 ∧ j = 1 then 1 else if i = 1 ∧ j = 0 then -1 else 0

/-- Fully stored 2×2 pattern. -/
def cexS : ℕ → ℕ → Bool := fun _ _ => true

/-! ## Concrete topology for GetCommonElem: a 2×2 quad patch

Elements `0` (bottom-left), `1` (bottom-right), `2` (top-left),
`3` (top-right); interior edges `4 = (0,1)`, `5 = (1,3)`, `6 = (0,2)`,
`7 = (2,3)`; boundary edges `8..15` with `Elem2No = -1`. -/

/-- Edge ids per element slot. -/
def patchFaceOf : ℤ → ℕ → ℕ := fun el i =>
  if el = 0 then (if i = 0 then 8 else if i = 1 then 4 else if i = 2 then 6 else 9)
  else if el = 1 then (if i = 0 then 10 else if i = 1 then 11 else if i = 2 then 5 else 4)
  else if el = 2 then (if i = 0 then 6 else if i = 1 then 12 else if i = 2 then 7 else 13)
  else (if i = 0 then 5 else if i = 1 then 7 else if i = 2 then 14 else 15)

/-- Edge-to-elements resolution. -/
def patchFaceElems : ℕ → ℤ × ℤ := fun f =>
  if f = 4 then (0, 1) else if f = 5 then (1, 3)
  else if f = 6 then (0, 2) else if f = 7 then (2, 3)
  else if f = 8 ∨ f = 9 then (0, -1)
  else if f = 10 ∨ f = 11 then (1, -1)
  else if f = 12 ∨ f = 13 then (2, -1)
  else (3, -1)

/-! # Generic fold lemmas

Properties of `min`/`max` folds, shared by the embeddings of
`ComputeVertexBounds` and of the per-element and per-subcell extrema. -/

lemma foldl_min_le_init {α : Type*} [LinearOrder α] (l : List α) (a : α) :
    l.foldl min a ≤ a := by
  induction l generalizing a with
  | nil => exact le_rfl
  | cons w l ih => exact le_trans (ih (min a w)) (min_le_left a w)

lemma foldl_min_le_mem {α : Type*} [LinearOrder α] (l : List α) (a v : α)
    (hv : v ∈ l) : l.foldl min a ≤ v := by
  induction l generalizing a with
  | nil => cases hv
  | cons w l ih =>
    rcases List.mem_cons.mp hv with h | h
    · subst h
      exact le_trans (foldl_min_le_init l (min a v)) (min_le_right a v)
    · exact ih (min a w) h

lemma foldl_min_mem_cons {α : Type*} [LinearOrder α] (l : List α) (a : α) :
    l.foldl min a = a ∨ ∃ v ∈ l, l.foldl min a = v := by
  induction l generalizing a with
  | nil => left; rfl
  | cons w l ih =>
    have hstep : (w :: l).foldl min a = l.foldl min (min a w) := rfl
    rcases ih (min a w) with h | ⟨v, hv, he⟩
    · rcases le_total a w with hh | hh
      · left; rw [hstep, h, min_eq_left hh]
      · right
        exact ⟨w, List.mem_cons_self w l, by rw [hstep, h, min_eq_right hh]⟩
    · right; exact ⟨v, List.mem_cons_of_mem _ hv, by rw [hstep, he]⟩

lemma init_le_foldl_max {α : Type*} [LinearOrder α] (l : List α) (a : α) :
    a ≤ l.foldl max a := by
  induction l generalizing a with
  | nil => exact le_rfl
  | cons w l ih => exact le_trans (le_max_left a w) (ih (max a w))

lemma mem_le_foldl_max {α : Type*} [LinearOrder α] (l : List α) (a v : α)
    (hv : v ∈ l) : v ≤ l.foldl max a := by
  induction l generalizing a with
  | nil => cases hv
  | cons w l ih =>
    rcases List.mem_cons.mp hv with h | h
    · subst h
      exact le_trans (le_max_right a v) (init_le_foldl_max l (max a v))
    · exact ih (max a w) h

lemma foldl_max_mem_cons {α : Type*} [LinearOrder α] (l : List α) (a : α) :
    l.foldl max a = a ∨ ∃ v ∈ l, l.foldl max a = v := by
  induction l generalizing a with
  | nil => left; rfl
  | cons w l ih =>
    have hstep : (w :: l).foldl max a = l.foldl max (max a w) := rfl
    rcases ih (max a w) with h | ⟨v, hv, he⟩
    · rcases le_total w a with hh | hh
      · left; rw [hstep, h, max_eq_left hh]
      · right
        exact ⟨w, List.mem_cons_self w l, by rw [hstep, h, max_eq_right hh]⟩
    · right; exact ⟨v, List.mem_cons_of_mem _ hv, by rw [hstep, he]⟩

lemma qMin_le (l : List ℚ) (v : ℚ) (hv : v ∈ l) : qMin l ≤ v := by
  cases l with
  | nil => cases hv
  | cons w t =>
    rcases List.mem_cons.mp hv with h | h
    · subst h; exact foldl_min_le_init t v
    · exact foldl_min_le_mem t w v h

lemma qMin_mem (l : List ℚ) (hl : l ≠ []) : qMin l ∈ l := by
  cases l with
  | nil => exact absurd rfl hl
  | cons w t =>
    rcases foldl_min_mem_cons t w with h | ⟨v, hv, he⟩
    · rw [qMin, h]; exact List.mem_cons_self w t
    · rw [qMin, he]; exact List.mem_cons_of_mem _ hv

lemma le_qMax (l : List ℚ) (v : ℚ) (hv : v ∈ l) : v ≤ qMax l := by
  cases l with
  | nil => cases hv
  | cons w t =>
    rcases List.mem_cons.mp hv with h | h
    · subst h; exact init_le_foldl_max t v
    · exact mem_le_foldl_max t w v h

lemma qMax_mem (l : List ℚ) (hl : l ≠ []) : qMax l ∈ l := by
  cases l with
  | nil => exact absurd rfl hl
  | cons w t =>
    rcases foldl_max_mem_cons t w with h | ⟨v, hv, he⟩
    · rw [qMax, h]; exact List.mem_cons_self w t
    · rw [qMax, he]; exact List.mem_cons_of_mem _ hv

lemma foldl_coe_min (t : List ℚ) (w : ℚ) :
    t.foldl (fun a v => min a ↑v) (↑w : WithTop ℚ) = ↑(t.foldl min w) := by
  induction t generalizing w with
  | nil => rfl
  | cons v t ih =>
    rw [List.foldl_cons, List.foldl_cons]
    have h1 : (min (↑w : WithTop ℚ) ↑v) = ↑(min w v) := (WithTop.coe_min w v).symm
    rw [h1, ih]

lemma foldl_coe_max (t : List ℚ) (w : ℚ) :
    t.foldl (fun a v => max a ↑v) (↑w : WithBot ℚ) = ↑(t.foldl max w) := by
  induction t generalizing w with
  | nil => rfl
  | cons v t ih =>
    rw [List.foldl_cons, List.foldl_cons]
    have h1 : (max (↑w : WithBot ℚ) ↑v) = ↑(max w v) := (WithBot.coe_max w v).symm
    rw [h1, ih]

lemma foldMinT_eq_qMin (l : List ℚ) (hl : l ≠ []) :
    foldMinT l = ↑(qMin l) := by
  cases l with
  | nil => exact absurd rfl hl
  | cons w t =>
    rw [foldMinT, List.foldl_cons]
    have h1 : (min (⊤ : WithTop ℚ) ↑w) = ↑w := min_eq_right le_top
    rw [h1, qMin]
    exact foldl_coe_min t w

lemma foldMaxB_eq_qMax (l : List ℚ) (hl : l ≠ []) :
    foldMaxB l = ↑(qMax l) := by
  cases l with
  | nil => exact absurd rfl hl
  | cons w t =>
    rw [foldMaxB, List.foldl_cons]
    have h1 : (max (⊥ : WithBot ℚ) ↑w) = ↑w := max_eq_right bot_le
    rw [h1, qMax]
    exact foldl_coe_max t w

lemma foldMinT_eq_map (l : List ℚ) :
    foldMinT l = (List.map WithTop.some l).foldl min ⊤ :=
  (List.foldl_map _ _ _ _).symm

lemma foldMaxB_eq_map (l : List ℚ) :
    foldMaxB l = (List.map WithBot.some l).foldl max ⊥ :=
  (List.foldl_map _ _ _ _).symm

lemma cvbMin_le (xemin : ℕ → ℚ) (l : List ℕ) (e : ℕ) (he : e ∈ l) :
    cvbMin xemin l ≤ ↑(xemin e) := by
  rw [cvbMin, foldMinT_eq_map]
  exact foldl_min_le_mem _ ⊤ _
    (List.mem_map.mpr ⟨xemin e, List.mem_map_of_mem xemin he, rfl⟩)

lemma le_cvbMax (xemax : ℕ → ℚ) (l : List ℕ) (e : ℕ) (he : e ∈ l) :
    ↑(xemax e) ≤ cvbMax xemax l := by
  rw [cvbMax, foldMaxB_eq_map]
  exact mem_le_foldl_max _ ⊥ _
    (List.mem_map.mpr ⟨xemax e, List.mem_map_of_mem xemax he, rfl⟩)

lemma cvbMin_attained (xemin : ℕ → ℚ) (l : List ℕ) (hl : l ≠ []) :
    ∃ e ∈ l, cvbMin xemin l = ↑(xemin e) := by
  have hm : l.map xemin ≠ [] := by
    simpa [List.map_eq_nil_iff] using hl
  have h1 : cvbMin xemin l = ↑(qMin (l.map xemin)) := foldMinT_eq_qMin _ hm
  obtain ⟨e, hel, he⟩ := List.mem_map.mp (qMin_mem _ hm)
  exact ⟨e, hel, by rw [h1, he]⟩

lemma cvbMax_attained (xemax : ℕ → ℚ) (l : List ℕ) (hl : l ≠ []) :
    ∃ e ∈ l, cvbMax xemax l = ↑(xemax e) := by
  have hm : l.map xemax ≠ [] := by
    simpa [List.map_eq_nil_iff] using hl
  have h1 : cvbMax xemax l = ↑(qMax (l.map xemax)) := foldMaxB_eq_qMax _ hm
  obtain ⟨e, hel, he⟩ := List.mem_map.mp (qMax_mem _ hm)
  exact ⟨e, hel, by rw [h1, he]⟩

lemma owner_mem_mapForBounds (ne nd numBdrs numDofs : ℕ)
    (BdrDofs : ℕ → ℕ → ℕ) (nbrElem : ℕ → ℕ → ℤ)
    (cornerEvents : ℕ → List (ℕ × ℕ)) (k i : ℕ) (hk : k < ne)
    (hi : i < nd) :
    k ∈ mapForBounds ne nd numBdrs numDofs BdrDofs nbrElem cornerEvents
      (k * nd + i) := by
  have hev : ((k * nd + i, k) : ℕ × ℕ) ∈
      boundsEvents ne nd numBdrs numDofs BdrDofs nbrElem cornerEvents := by
    rw [boundsEvents]
    apply List.mem_flatMap.mpr
    refine ⟨k, List.mem_range.mpr hk, ?_⟩
    apply List.mem_append_left
    apply List.mem_append_left
    rw [ownEvents]
    exact List.mem_map.mpr ⟨i, List.mem_range.mpr hi, rfl⟩
  rw [mapForBounds]
  apply List.mem_map.mpr
  refine ⟨(k * nd + i, k), ?_, rfl⟩
  apply List.mem_filter.mpr
  exact ⟨hev, by simp⟩

/-- C4: for any dof `d = k*nd+i`, after `ComputeVertexBounds(x, d)`,
`xi_min(d)` equals the minimum of `xe_min(e)` and `xi_max(d)` the maximum of
`xe_max(e)` over exactly the elements of `map_for_bounds[d]` (lower/upper
bound plus attainment); the construction of `GetVertexBoundsMap` always
inserts the owning element `k`, so the contributor list is nonempty; and if
every contributing element satisfies `xe_min(e) ≤ xe_max(e)`, then both
bounds are finite with `xi_min(d) ≤ xi_max(d)`. -/
theorem vertexBounds_query (ne nd numBdrs numDofs : ℕ)
    (BdrDofs : ℕ → ℕ → ℕ) (nbrElem : ℕ → ℕ → ℤ)
    (cornerEvents : ℕ → List (ℕ × ℕ)) (xemin xemax : ℕ → ℚ) (k i : ℕ)
    (hk : k < ne) (hi : i < nd) (l : List ℕ)
    (hl : l = mapForBounds ne nd numBdrs numDofs BdrDofs nbrElem cornerEvents
      (k * nd + i)) :
    k ∈ l ∧ l ≠ [] ∧
    (∀ e ∈ l, cvbMin xemin l ≤ ↑(xemin e)) ∧
    (∃ e ∈ l, cvbMin xemin l = ↑(xemin e)) ∧
    (∀ e ∈ l, ↑(xemax e) ≤ cvbMax xemax l) ∧
    (∃ e ∈ l, cvbMax xemax l = ↑(xemax e)) ∧
    ((∀ e ∈ l, xemin e ≤ xemax e) →
      ∃ a b : ℚ, cvbMin xemin l = ↑a ∧ cvbMax xemax l = ↑b ∧ a ≤ b) := by
  subst hl
  have hkmem := owner_mem_mapForBounds ne nd numBdrs numDofs BdrDofs nbrElem
    cornerEvents k i hk hi
  set l := mapForBounds ne nd numBdrs numDofs BdrDofs nbrElem cornerEvents
    (k * nd + i) with hldef
  have hne : l ≠ [] := List.ne_nil_of_mem hkmem
  refine ⟨hkmem, hne, fun e he => cvbMin_le xemin l e he,
    cvbMin_attained xemin l hne, fun e he => le_cvbMax xemax l e he,
    cvbMax_attained xemax l hne, fun hord => ?_⟩
  obtain ⟨e1, he1, hmin⟩ := cvbMin_attained xemin l hne
  obtain ⟨e2, he2, hmax⟩ := cvbMax_attained xemax l hne
  refine ⟨xemin e1, xemax e2, hmin, hmax, ?_⟩
  have h1 : cvbMin xemin l ≤ ↑(xemin e2) := cvbMin_le xemin l e2 he2
  rw [hmin] at h1
  have h2 : xemin e1 ≤ xemin e2 := WithTop.coe_le_coe.mp h1
  exact le_trans h2 (hord e2 he2)

/-- Witness for C4 at a concrete one-element topology. -/
theorem vertexBounds_query_w :
    (0 : ℕ) ∈ mapForBounds 1 1 0 0 (fun _ _ => 0) (fun _ _ => -1)
      (fun _ => []) 0 ∧
    mapForBounds 1 1 0 0 (fun _ _ => 0) (fun _ _ => -1) (fun _ => []) 0
      ≠ [] ∧
    (∀ e ∈ mapForBounds 1 1 0 0 (fun _ _ => 0) (fun _ _ => -1)
        (fun _ => []) 0,
      cvbMin (fun _ => 0) (mapForBounds 1 1 0 0 (fun _ _ => 0)
        (fun _ _ => -1) (fun _ => []) 0) ≤ ↑((fun _ => (0:ℚ)) e)) ∧
    (∃ e ∈ mapForBounds 1 1 0 0 (fun _ _ => 0) (fun _ _ => -1)
        (fun _ => []) 0,
      cvbMin (fun _ => 0) (mapForBounds 1 1 0 0 (fun _ _ => 0)
        (fun _ _ => -1) (fun _ => []) 0) = ↑((fun _ => (0:ℚ)) e)) ∧
    (∀ e ∈ mapForBounds 1 1 0 0 (fun _ _ => 0) (fun _ _ => -1)
        (fun _ => []) 0,
      ↑((fun _ => (2:ℚ)) e) ≤ cvbMax (fun _ => 2) (mapForBounds 1 1 0 0
        (fun _ _ => 0) (fun _ _ => -1) (fun _ => []) 0)) ∧
    (∃ e ∈ mapForBounds 1 1 0 0 (fun _ _ => 0) (fun _ _ => -1)
        (fun _ => []) 0,
      cvbMax (fun _ => 2) (mapForBounds 1 1 0 0 (fun _ _ => 0)
        (fun _ _ => -1) (fun _ => []) 0) = ↑((fun _ => (2:ℚ)) e)) ∧
    ((∀ e ∈ mapForBounds 1 1 0 0 (fun _ _ => 0) (fun _ _ => -1)
        (fun _ => []) 0, (fun _ => (0:ℚ)) e ≤ (fun _ => (2:ℚ)) e) →
      ∃ a b : ℚ, cvbMin (fun _ => 0) (mapForBounds 1 1 0 0 (fun _ _ => 0)
          (fun _ _ => -1) (fun _ => []) 0) = ↑a ∧
        cvbMax (fun _ => 2) (mapForBounds 1 1 0 0 (fun _ _ => 0)
          (fun _ _ => -1) (fun _ => []) 0) = ↑b ∧ a ≤ b) := by
  have h := vertexBounds_query 1 1 0 0 (fun _ _ => 0) (fun _ _ => -1)
    (fun _ => []) (fun _ => 0) (fun _ => 2) 0 0 (by decide) (by decide)
    (mapForBounds 1 1 0 0 (fun _ _ => 0) (fun _ _ => -1) (fun _ => []) 0)
    (by norm_num)
  simpa using h

/-! # The FCT blend: boundedness and conservation -/

lemma eps15_pos : 0 < eps15 := by norm_num [eps15]

lemma sumPosF_nonneg (nd : ℕ) (f : ℕ → ℚ) : 0 ≤ sumPosF nd f :=
  Finset.sum_nonneg (fun j _ => le_max_right (f j) 0)

lemma sumNegF_nonpos (nd : ℕ) (f : ℕ → ℚ) : sumNegF nd f ≤ 0 :=
  Finset.sum_nonpos (fun j _ => min_le_right (f j) 0)

/-- The Zalesak rescaling multiplies a flux by a factor in `[0,1]` (or
leaves it unchanged), so the result stays between `min fj 0` and
`max fj 0`. -/
lemma fctRescale_between (sp sn fj : ℚ) (hsp : 0 ≤ sp) (hsn : sn ≤ 0) :
    min fj 0 ≤ fctRescale sp sn fj ∧ fctRescale sp sn fj ≤ max fj 0 := by
  have he := eps15_pos
  by_cases h1 : sp + sn > eps15 ∧ fj > eps15
  · have hsp' : 0 < sp := by linarith [h1.1]
    have hfj : 0 < fj := lt_trans he h1.2
    have hc0 : 0 ≤ -sn / sp := div_nonneg (neg_nonneg.mpr hsn) hsp'.le
    have hc1 : -sn / sp ≤ 1 := (div_le_one hsp').mpr (by linarith [h1.1])
    have hf1a : 0 ≤ fj * (-sn / sp) := mul_nonneg hfj.le hc0
    have hf1b : fj * (-sn / sp) ≤ fj := mul_le_of_le_one_right hfj.le hc1
    have h2 : ¬(sp + sn < -eps15 ∧ fj * (-sn / sp) < -eps15) := by
      rintro ⟨ha, -⟩; linarith [h1.1]
    simp only [fctRescale, if_pos h1, if_neg h2]
    exact ⟨le_trans (min_le_right fj 0) hf1a, le_trans hf1b (le_max_left fj 0)⟩
  · by_cases h2 : sp + sn < -eps15 ∧ fj < -eps15
    · have hsn' : sn < 0 := by linarith [h2.1]
      have hfj : fj < 0 := lt_trans h2.2 (by linarith)
      have heq : -sp / sn = sp / -sn := by rw [neg_div, div_neg]
      have hc0 : 0 ≤ -sp / sn := by
        rw [heq]; exact div_nonneg hsp (by linarith)
      have hc1 : -sp / sn ≤ 1 := by
        rw [heq]
        exact (div_le_one (by linarith)).mpr (by linarith [h2.1])
      have hf1a : fj ≤ fj * (-sp / sn) := by
        nlinarith [mul_nonneg (neg_nonneg.mpr hfj.le) (sub_nonneg.mpr hc1)]
      have hf1b : fj * (-sp / sn) ≤ 0 := by
        nlinarith [mul_nonneg (neg_nonneg.mpr hfj.le) hc0]
      simp only [fctRescale, if_neg h1, if_pos h2]
      exact ⟨le_trans (min_le_left fj 0) hf1a,
        le_trans hf1b (le_max_right fj 0)⟩
    · simp only [fctRescale, if_neg h1, if_neg h2]
      exact ⟨min_le_left fj 0, le_max_left fj 0⟩

/-- In the `sumPos+sumNeg > eps` case only the first `if` can fire. -/
lemma fctRescale_posCase (sp sn fj : ℚ) (h : sp + sn > eps15) :
    fctRescale sp sn fj = if fj > eps15 then fj * (-sn / sp) else fj := by
  have he := eps15_pos
  by_cases hf : fj > eps15
  · have h1 : sp + sn > eps15 ∧ fj > eps15 := ⟨h, hf⟩
    have h2 : ¬(sp + sn < -eps15 ∧ fj * (-sn / sp) < -eps15) := by
      rintro ⟨ha, -⟩; linarith
    simp only [fctRescale, if_pos h1, if_neg h2, if_pos hf]
  · have h1 : ¬(sp + sn > eps15 ∧ fj > eps15) := fun hc => hf hc.2
    have h2 : ¬(sp + sn < -eps15 ∧ fj < -eps15) := by
      rintro ⟨ha, -⟩; linarith
    simp only [fctRescale, if_neg h1, if_neg h2, if_neg hf]

/-- In the `sumPos+sumNeg < -eps` case only the second `if` can fire. -/
lemma fctRescale_negCase (sp sn fj : ℚ) (h : sp + sn < -eps15) :
    fctRescale sp sn fj = if fj < -eps15 then fj * (-sp / sn) else fj := by
  have he := eps15_pos
  have h1 : ¬(sp + sn > eps15 ∧ fj > eps15) := by
    rintro ⟨ha, -⟩; linarith
  by_cases hf : fj < -eps15
  · have h2 : sp + sn < -eps15 ∧ fj < -eps15 := ⟨h, hf⟩
    simp only [fctRescale, if_neg h1, if_pos h2, if_pos hf]
  · have h2 : ¬(sp + sn < -eps15 ∧ fj < -eps15) := fun hc => hf hc.2
    simp only [fctRescale, if_neg h1, if_neg h2, if_neg hf]

/-- Generic conservation bound for the Zalesak rescaling: when the net flux
exceeds the tolerance, the rescaled fluxes sum to `0` up to `nd·eps`. -/
lemma fct_sum_bound (nd : ℕ) (f : ℕ → ℚ)
    (h : |sumPosF nd f + sumNegF nd f| > eps15) :
    |∑ j ∈ Finset.range nd,
        fctRescale (sumPosF nd f) (sumNegF nd f) (f j)| ≤ nd * eps15 := by
  have he := eps15_pos
  set sp := sumPosF nd f with hspdef
  set sn := sumNegF nd f with hsndef
  have hsp : 0 ≤ sp := sumPosF_nonneg nd f
  have hsn : sn ≤ 0 := sumNegF_nonpos nd f
  have hnd : (0:ℚ) ≤ nd * eps15 := by positivity
  rcases lt_abs.mp h with hP | hN
  · -- positive case: factor c = -sn/sp on fluxes above eps
    have hsp' : 0 < sp := by linarith
    set c := -sn / sp with hcdef
    have hc0 : 0 ≤ c := div_nonneg (neg_nonneg.mpr hsn) hsp'.le
    have hc1 : c ≤ 1 := (div_le_one hsp').mpr (by linarith)
    have hcsp : c * sp = -sn := by
      rw [hcdef, div_mul_cancel₀ _ (ne_of_gt hsp')]
    have hre : ∀ j ∈ Finset.range nd,
        fctRescale sp sn (f j) = if f j > eps15 then f j * c else f j :=
      fun j _ => fctRescale_posCase sp sn (f j) hP
    rw [Finset.sum_congr rfl hre]
    have hterm : ∀ j, (if f j > eps15 then f j * c else f j)
        = ((if f j > eps15 then f j * c else f j)
            - (c * max (f j) 0 + min (f j) 0))
          + (c * max (f j) 0 + min (f j) 0) := fun j => by ring
    have hgb : ∀ j, 0 ≤ (if f j > eps15 then f j * c else f j)
        - (c * max (f j) 0 + min (f j) 0) ∧
        (if f j > eps15 then f j * c else f j)
          - (c * max (f j) 0 + min (f j) 0) ≤ eps15 := by
      intro j
      by_cases hfj : f j > eps15
      · have hfj0 : (0:ℚ) ≤ f j := le_of_lt (lt_trans he hfj)
        rw [if_pos hfj, max_eq_left hfj0, min_eq_right hfj0]
        constructor <;> nlinarith
      · rcases le_or_lt 0 (f j) with hfj0 | hfj0
        · have hfle : f j ≤ eps15 := le_of_not_lt hfj
          rw [if_neg hfj, max_eq_left hfj0, min_eq_right hfj0]
          constructor <;> nlinarith
        · rw [if_neg hfj, max_eq_right hfj0.le, min_eq_left hfj0.le]
          constructor <;> nlinarith
    have hsplit : ∑ j ∈ Finset.range nd, (if f j > eps15 then f j * c else f j)
        = (∑ j ∈ Finset.range nd, ((if f j > eps15 then f j * c else f j)
            - (c * max (f j) 0 + min (f j) 0)))
          + (c * sp + sn) := by
      rw [hspdef, hsndef, sumPosF, sumNegF, Finset.mul_sum,
        ← Finset.sum_add_distrib, ← Finset.sum_add_distrib]
      exact Finset.sum_congr rfl fun j _ => by ring
    rw [hsplit, hcsp]
    have hg1 : 0 ≤ ∑ j ∈ Finset.range nd,
        ((if f j > eps15 then f j * c else f j)
          - (c * max (f j) 0 + min (f j) 0)) :=
      Finset.sum_nonneg fun j _ => (hgb j).1
    have hg2 : (∑ j ∈ Finset.range nd,
        ((if f j > eps15 then f j * c else f j)
          - (c * max (f j) 0 + min (f j) 0))) ≤ nd * eps15 := by
      calc _ ≤ ∑ _j ∈ Finset.range nd, eps15 :=
              Finset.sum_le_sum fun j _ => (hgb j).2
        _ = nd * eps15 := by
              rw [Finset.sum_const, Finset.card_range, nsmul_eq_mul]
    rw [abs_le]
    constructor <;> linarith
  · -- negative case: factor c = -sp/sn on fluxes below -eps
    have hPn : sp + sn < -eps15 := by linarith
    have hsn' : sn < 0 := by linarith
    set c := -sp / sn with hcdef
    have heq : -sp / sn = sp / -sn := by rw [neg_div, div_neg]
    have hc0 : 0 ≤ c := by rw [hcdef, heq]; exact div_nonneg hsp (by linarith)
    have hc1 : c ≤ 1 := by
      rw [hcdef, heq]; exact (div_le_one (by linarith)).mpr (by linarith)
    have hcsn : c * sn = -sp := by
      rw [hcdef, div_mul_cancel₀ _ (ne_of_lt hsn')]
    have hre : ∀ j ∈ Finset.range nd,
        fctRescale sp sn (f j) = if f j < -eps15 then f j * c else f j :=
      fun j _ => fctRescale_negCase sp sn (f j) hPn
    rw [Finset.sum_congr rfl hre]
    have hgb : ∀ j, -eps15 ≤ (if f j < -eps15 then f j * c else f j)
        - (max (f j) 0 + c * min (f j) 0) ∧
        (if f j < -eps15 then f j * c else f j)
          - (max (f j) 0 + c * min (f j) 0) ≤ 0 := by
      intro j
      by_cases hfj : f j < -eps15
      · have hfj0 : f j ≤ 0 := le_of_lt (lt_trans hfj (by linarith))
        rw [if_pos hfj, max_eq_right hfj0, min_eq_left hfj0]
        constructor <;> nlinarith
      · rcases le_or_lt (f j) 0 with hfj0 | hfj0
        · have hfge : -eps15 ≤ f j := le_of_not_lt hfj
          rw [if_neg hfj, max_eq_right hfj0, min_eq_left hfj0]
          constructor <;> nlinarith
        · rw [if_neg hfj, max_eq_left hfj0.le, min_eq_right hfj0.le]
          constructor <;> nlinarith
    have hsplit : ∑ j ∈ Finset.range nd, (if f j < -eps15 then f j * c else f j)
        = (∑ j ∈ Finset.range nd, ((if f j < -eps15 then f j * c else f j)
            - (max (f j) 0 + c * min (f j) 0)))
          + (sp + c * sn) := by
      rw [hspdef, hsndef, sumPosF, sumNegF, Finset.mul_sum,
        ← Finset.sum_add_distrib, ← Finset.sum_add_distrib]
      exact Finset.sum_congr rfl fun j _ => by ring
    rw [hsplit, hcsn]
    have hg1 : -(nd * eps15) ≤ ∑ j ∈ Finset.range nd,
        ((if f j < -eps15 then f j * c else f j)
          - (max (f j) 0 + c * min (f j) 0)) := by
      calc -(nd * eps15) = ∑ _j ∈ Finset.range nd, (-eps15) := by
              rw [Finset.sum_const, Finset.card_range, nsmul_eq_mul]; ring
        _ ≤ _ := Finset.sum_le_sum fun j _ => (hgb j).1
    have hg2 : (∑ j ∈ Finset.range nd,
        ((if f j < -eps15 then f j * c else f j)
          - (max (f j) 0 + c * min (f j) 0))) ≤ 0 :=
      Finset.sum_nonpos fun j _ => (hgb j).2
    rw [abs_le]
    constructor <;> linarith

/-- C2: FCT local conservation.  After the Zalesak rescaling of
`ComputeFCTSolution` (positive fluxes above `eps` scaled by
`-sumNeg/sumPos` when the net sum exceeds `eps`, negative fluxes below
`-eps` scaled by `-sumPos/sumNeg` when it is below `-eps`), the rescaled
`fClipped` values of one element sum to `0` within `nd·eps`, whenever
`|sumPos+sumNeg| > eps`. -/
theorem fct_conservation (nd : ℕ) (lumpedM ximin ximax x yH yL : ℕ → ℚ)
    (dt : ℚ)
    (h : |sumPosF nd (fClipped0 lumpedM ximin ximax x yH yL dt)
        + sumNegF nd (fClipped0 lumpedM ximin ximax x yH yL dt)| > eps15) :
    |∑ j ∈ Finset.range nd,
        fClippedFinal nd lumpedM ximin ximax x yH yL dt j| ≤ nd * eps15 :=
  fct_sum_bound nd (fClipped0 lumpedM ximin ximax x yH yL dt) h

/-- Witness for C2 at a concrete element (`nd = 1`, net flux `1 > eps`). -/
theorem fct_conservation_w :
    |sumPosF 1 (fClipped0 (fun _ => 1) (fun _ => 0) (fun _ => 2)
        (fun _ => 0) (fun _ => 1) (fun _ => 0) 1)
      + sumNegF 1 (fClipped0 (fun _ => 1) (fun _ => 0) (fun _ => 2)
        (fun _ => 0) (fun _ => 1) (fun _ => 0) 1)| > eps15 ∧
    |∑ j ∈ Finset.range 1,
        fClippedFinal 1 (fun _ => 1) (fun _ => 0) (fun _ => 2) (fun _ => 0)
          (fun _ => 1) (fun _ => 0) 1 j| ≤ 1 * eps15 := by
  have hf : fClipped0 (fun _ => 1) (fun _ => 0) (fun _ => 2) (fun _ => 0)
      (fun _ => 1) (fun _ => 0) 1 0 = 1 := by
    norm_num [fClipped0, uClipped]
  have hs : |sumPosF 1 (fClipped0 (fun _ => 1) (fun _ => 0) (fun _ => 2)
      (fun _ => 0) (fun _ => 1) (fun _ => 0) 1)
      + sumNegF 1 (fClipped0 (fun _ => 1) (fun _ => 0) (fun _ => 2)
        (fun _ => 0) (fun _ => 1) (fun _ => 0) 1)| > eps15 := by
    rw [sumPosF, sumNegF, Finset.sum_range_one, Finset.sum_range_one, hf]
    norm_num [eps15]
  refine ⟨hs, ?_⟩
  have h := fct_conservation 1 (fun _ => 1) (fun _ => 0) (fun _ => 2)
    (fun _ => 0) (fun _ => 1) (fun _ => 0) 1 hs
  simpa using h

/-- C1: FCT boundedness.  If the low-order forward-Euler value
`x + dt·yL` lies in `[xi_min, xi_max]` at every dof of the element (with
`xi_min/xi_max` the bounds refreshed by `ComputeVertexBounds` from the
contributor map), `dt > 0` and the lumped mass is positive, then the rate
`y` produced by `ComputeFCTSolution` satisfies
`xi_min ≤ x + dt·y ≤ xi_max` at every dof. -/
theorem fct_boundedness (nd : ℕ)
    (lumpedM ximin ximax x yH yL xemin xemax : ℕ → ℚ) (bmap : ℕ → List ℕ)
    (dt : ℚ) (hdt : 0 < dt) (hm : ∀ j, j < nd → 0 < lumpedM j)
    (hbmin : ∀ j, j < nd → cvbMin xemin (bmap j) = ↑(ximin j))
    (hbmax : ∀ j, j < nd → cvbMax xemax (bmap j) = ↑(ximax j))
    (hlow : ∀ j, j < nd →
      ximin j ≤ x j + dt * yL j ∧ x j + dt * yL j ≤ ximax j)
    (d : ℕ) (hd : d < nd) :
    ximin d ≤ x d + dt * yFCT nd lumpedM ximin ximax x yH yL dt d ∧
    x d + dt * yFCT nd lumpedM ximin ximax x yH yL dt d ≤ ximax d := by
  obtain ⟨hl1, hl2⟩ := hlow d hd
  have hmd := hm d hd
  have hmne : lumpedM d ≠ 0 := ne_of_gt hmd
  have hdtne : dt ≠ 0 := ne_of_gt hdt
  have hxm : ximin d ≤ ximax d := le_trans hl1 hl2
  have hu1 : ximin d ≤ uClipped ximin ximax x yH dt d := by
    rw [uClipped]; exact le_min hxm (le_max_right _ _)
  have hu2 : uClipped ximin ximax x yH dt d ≤ ximax d := min_le_left _ _
  have hfval : dt * fClipped0 lumpedM ximin ximax x yH yL dt d / lumpedM d
      = uClipped ximin ximax x yH dt d - (x d + dt * yL d) := by
    rw [fClipped0]; field_simp
  have hFdef : fClippedFinal nd lumpedM ximin ximax x yH yL dt d
      = fctRescale (sumPosF nd (fClipped0 lumpedM ximin ximax x yH yL dt))
          (sumNegF nd (fClipped0 lumpedM ximin ximax x yH yL dt))
          (fClipped0 lumpedM ximin ximax x yH yL dt d) := rfl
  obtain ⟨hr1, hr2⟩ := fctRescale_between
    (sumPosF nd (fClipped0 lumpedM ximin ximax x yH yL dt))
    (sumNegF nd (fClipped0 lumpedM ximin ximax x yH yL dt))
    (fClipped0 lumpedM ximin ximax x yH yL dt d)
    (sumPosF_nonneg _ _) (sumNegF_nonpos _ _)
  rw [← hFdef] at hr1 hr2
  have hyval : x d + dt * yFCT nd lumpedM ximin ximax x yH yL dt d
      = (x d + dt * yL d)
        + dt * fClippedFinal nd lumpedM ximin ximax x yH yL dt d
          / lumpedM d := by
    rw [yFCT]; field_simp; ring
  rcases le_or_lt 0 (fClipped0 lumpedM ximin ximax x yH yL dt d) with hf | hf
  · have hF0 : 0 ≤ fClippedFinal nd lumpedM ximin ximax x yH yL dt d := by
      rw [min_eq_right hf] at hr1; exact hr1
    have hF1 : fClippedFinal nd lumpedM ximin ximax x yH yL dt d
        ≤ fClipped0 lumpedM ximin ximax x yH yL dt d := by
      rw [max_eq_left hf] at hr2; exact hr2
    constructor
    · rw [hyval]
      have h0 : 0 ≤ dt * fClippedFinal nd lumpedM ximin ximax x yH yL dt d
          / lumpedM d := div_nonneg (mul_nonneg hdt.le hF0) hmd.le
      linarith
    · rw [hyval]
      have hle : dt * fClippedFinal nd lumpedM ximin ximax x yH yL dt d
          / lumpedM d
          ≤ dt * fClipped0 lumpedM ximin ximax x yH yL dt d / lumpedM d := by
        gcongr
      rw [hfval] at hle
      linarith
  · have hF0 : fClippedFinal nd lumpedM ximin ximax x yH yL dt d ≤ 0 := by
      rw [max_eq_right hf.le] at hr2; exact hr2
    have hF1 : fClipped0 lumpedM ximin ximax x yH yL dt d
        ≤ fClippedFinal nd lumpedM ximin ximax x yH yL dt d := by
      rw [min_eq_left hf.le] at hr1; exact hr1
    constructor
    · rw [hyval]
      have hle : dt * fClipped0 lumpedM ximin ximax x yH yL dt d / lumpedM d
          ≤ dt * fClippedFinal nd lumpedM ximin ximax x yH yL dt d
            / lumpedM d := by
        gcongr
      rw [hfval] at hle
      linarith
    · rw [hyval]
      have h0 : dt * fClippedFinal nd lumpedM ximin ximax x yH yL dt d
          / lumpedM d ≤ 0 :=
        div_nonpos_of_nonpos_of_nonneg (mul_nonpos_of_nonneg_of_nonpos
          hdt.le hF0) hmd.le
      linarith

/-- Witness for C1 at a concrete element. -/
theorem fct_boundedness_w :
    (0:ℚ) ≤ 0 + 1 * yFCT 1 (fun _ => 1) (fun _ => 0) (fun _ => 2)
      (fun _ => 0) (fun _ => 1) (fun _ => 0) 1 0 ∧
    (0:ℚ) + 1 * yFCT 1 (fun _ => 1) (fun _ => 0) (fun _ => 2) (fun _ => 0)
      (fun _ => 1) (fun _ => 0) 1 0 ≤ 2 := by
  have hbmin : cvbMin (fun _ => (0:ℚ)) [0] = ((0:ℚ) : WithTop ℚ) := by
    have h := foldMinT_eq_qMin [(0:ℚ)] (by simp)
    simpa [cvbMin, qMin] using h
  have hbmax : cvbMax (fun _ => (2:ℚ)) [0] = ((2:ℚ) : WithBot ℚ) := by
    have h := foldMaxB_eq_qMax [(2:ℚ)] (by simp)
    simpa [cvbMax, qMax] using h
  have h := fct_boundedness 1 (fun _ => 1) (fun _ => 0) (fun _ => 2)
    (fun _ => 0) (fun _ => 1) (fun _ => 0) (fun _ => 0) (fun _ => 2)
    (fun _ => [0]) 1 (by norm_num) (fun j _ => by norm_num)
    (fun j _ => hbmin) (fun j _ => hbmax)
    (fun j _ => by norm_num) 0 (by norm_num)
  simpa using h

/-! # NeumannSolve: iteration cap and early return -/

lemma neumannIter_spec (n : ℕ) (M : ℕ → ℕ → ℚ) (lumpedM f : ℕ → ℚ) :
    ∀ (fuel : ℕ) (x : ℕ → ℚ),
    ∃ j, j ≤ fuel ∧
      neumannIter n M lumpedM f fuel x = (neumannStep n M lumpedM f)^[j] x ∧
      (∀ k, k < j →
        ¬ residSq n M f ((neumannStep n M lumpedM f)^[k] x)
          ≤ neumannTol ^ 2) ∧
      (j < fuel →
        residSq n M f ((neumannStep n M lumpedM f)^[j] x)
          ≤ neumannTol ^ 2) := by
  intro fuel
  induction fuel with
  | zero =>
    intro x
    exact ⟨0, le_rfl, rfl, fun k hk => absurd hk (Nat.not_lt_zero k),
      fun h => absurd h (lt_irrefl 0)⟩
  | succ fuel ih =>
    intro x
    by_cases hres : residSq n M f x ≤ neumannTol ^ 2
    · refine ⟨0, Nat.zero_le _, ?_, fun k hk => absurd hk (Nat.not_lt_zero k),
        fun _ => by simpa [Function.iterate_zero_apply] using hres⟩
      rw [neumannIter, if_pos hres, Function.iterate_zero_apply]
    · obtain ⟨j, hj, heq, hmin, hlast⟩ := ih (neumannStep n M lumpedM f x)
      refine ⟨j + 1, Nat.succ_le_succ hj, ?_, ?_, ?_⟩
      · rw [neumannIter, if_neg hres, heq, Function.iterate_succ_apply]
      · intro k hk
        cases k with
        | zero => simpa [Function.iterate_zero_apply] using hres
        | succ k =>
          rw [Function.iterate_succ_apply]
          exact hmin k (by omega)
      · intro hjf
        rw [Function.iterate_succ_apply]
        exact hlast (by omega)

/-- C5: `NeumannSolve` starts from `x = 0`, performs at most `20`
iterations, returns as soon as the residual measured at the start of an
iteration satisfies `‖Mx - f‖₂ ≤ 1e-4` (equivalently, squared residual
below squared tolerance), and when the cap is reached it returns the
current iterate — a total function, with no error signalled. -/
theorem neumannSolve_caps (n : ℕ) (M : ℕ → ℕ → ℚ) (lumpedM f : ℕ → ℚ)
    (hl : ∀ i, i < n → lumpedM i ≠ 0) :
    ∃ j, j ≤ 20 ∧
      neumannSolve n M lumpedM f
        = (neumannStep n M lumpedM f)^[j] (fun _ => 0) ∧
      (∀ k, k < j →
        ¬ residSq n M f ((neumannStep n M lumpedM f)^[k] (fun _ => 0))
          ≤ neumannTol ^ 2) ∧
      (j < 20 →
        residSq n M f ((neumannStep n M lumpedM f)^[j] (fun _ => 0))
          ≤ neumannTol ^ 2) :=
  neumannIter_spec n M lumpedM f 20 (fun _ => 0)

/-- Witness for C5 at a concrete well-posed system. -/
theorem neumannSolve_caps_w :
    (∀ i, i < 1 → (fun _ => (1:ℚ)) i ≠ 0) ∧
    ∃ j, j ≤ 20 ∧
      neumannSolve 1 (fun _ _ => 1) (fun _ => 1) (fun _ => 0)
        = (neumannStep 1 (fun _ _ => 1) (fun _ => 1) (fun _ => 0))^[j]
            (fun _ => 0) ∧
      (∀ k, k < j →
        ¬ residSq 1 (fun _ _ => 1) (fun _ => 0)
            ((neumannStep 1 (fun _ _ => 1) (fun _ => 1)
              (fun _ => 0))^[k] (fun _ => 0)) ≤ neumannTol ^ 2) ∧
      (j < 20 →
        residSq 1 (fun _ _ => 1) (fun _ => 0)
            ((neumannStep 1 (fun _ _ => 1) (fun _ => 1)
              (fun _ => 0))^[j] (fun _ => 0)) ≤ neumannTol ^ 2) :=
  ⟨fun _ _ => one_ne_zero,
    neumannSolve_caps 1 (fun _ _ => 1) (fun _ => 1) (fun _ => 0)
      (fun _ _ => one_ne_zero)⟩

/-! # Residual-distribution denominators -/

lemma mem_elemVals (x : ℕ → ℚ) (k nd j : ℕ) (hj : j < nd) :
    x (k * nd + j) ∈ elemVals x k nd :=
  List.mem_map.mpr ⟨j, List.mem_range.mpr hj, rfl⟩

lemma mem_subcellVals (x : ℕ → ℚ) (k nd : ℕ) (Sub2Ind : ℕ → ℕ → ℕ)
    (ndS m i : ℕ) (hi : i < ndS) :
    x (k * nd + Sub2Ind m i) ∈ subcellVals x k nd Sub2Ind ndS m :=
  List.mem_map.mpr ⟨i, List.mem_range.mpr hi, rfl⟩

lemma xSumEl_le (x : ℕ → ℚ) (k nd : ℕ) :
    xSumEl x k nd ≤ nd * qMax (elemVals x k nd) := by
  rw [xSumEl]
  calc ∑ j ∈ Finset.range nd, x (k * nd + j)
      ≤ ∑ _j ∈ Finset.range nd, qMax (elemVals x k nd) :=
        Finset.sum_le_sum fun j hj =>
          le_qMax _ _ (mem_elemVals x k nd j (Finset.mem_range.mp hj))
    _ = nd * qMax (elemVals x k nd) := by
        rw [Finset.sum_const, Finset.card_range, nsmul_eq_mul]

lemma le_xSumEl (x : ℕ → ℚ) (k nd : ℕ) :
    nd * qMin (elemVals x k nd) ≤ xSumEl x k nd := by
  rw [xSumEl]
  calc (nd : ℚ) * qMin (elemVals x k nd)
      = ∑ _j ∈ Finset.range nd, qMin (elemVals x k nd) := by
        rw [Finset.sum_const, Finset.card_range, nsmul_eq_mul]
    _ ≤ ∑ j ∈ Finset.range nd, x (k * nd + j) :=
        Finset.sum_le_sum fun j hj =>
          qMin_le _ _ (mem_elemVals x k nd j (Finset.mem_range.mp hj))

/-- C6: in the residual-distribution branch, the element denominators
satisfy `sumWeightsP ≥ eps > 0` and `sumWeightsN ≤ -eps < 0`, every subcell
denominator satisfies the same bounds, and `rhoP + eps`, `rhoN - eps`,
`sumFluctSubcellP + eps`, `sumFluctSubcellN - eps` are all nonzero (of the
expected sign), so every division in the branch is by a nonzero number and
no error is raised for these numerical edge cases. -/
theorem rd_denominators (x z : ℕ → ℚ) (k nd : ℕ) (Sub2Ind : ℕ → ℕ → ℕ)
    (W : ℕ → ℕ → ℚ) (ndS numSub : ℕ) (hnd : 0 < nd) (hndS : 0 < ndS) :
    eps15 ≤ sumWeightsP x k nd ∧ sumWeightsN x k nd ≤ -eps15 ∧
    (∀ m, eps15 ≤ sumWeightsSubcellP x k nd Sub2Ind ndS m ∧
      sumWeightsSubcellN x k nd Sub2Ind ndS m ≤ -eps15) ∧
    0 < rhoP z k nd + eps15 ∧ rhoN z k nd - eps15 < 0 ∧
    0 < sumFluctSubcellP x k nd Sub2Ind W ndS numSub + eps15 ∧
    sumFluctSubcellN x k nd Sub2Ind W ndS numSub - eps15 < 0 := by
  have he := eps15_pos
  refine ⟨?_, ?_, ?_, ?_, ?_, ?_, ?_⟩
  · have h := xSumEl_le x k nd
    rw [sumWeightsP]; linarith
  · have h := le_xSumEl x k nd
    rw [sumWeightsN]; linarith
  · intro m
    have h1 : (∑ i ∈ Finset.range ndS, x (k * nd + Sub2Ind m i))
        ≤ ndS * qMax (subcellVals x k nd Sub2Ind ndS m) := by
      calc ∑ i ∈ Finset.range ndS, x (k * nd + Sub2Ind m i)
          ≤ ∑ _i ∈ Finset.range ndS, qMax (subcellVals x k nd Sub2Ind ndS m) :=
            Finset.sum_le_sum fun i hi => le_qMax _ _
              (mem_subcellVals x k nd Sub2Ind ndS m i (Finset.mem_range.mp hi))
        _ = ndS * qMax (subcellVals x k nd Sub2Ind ndS m) := by
            rw [Finset.sum_const, Finset.card_range, nsmul_eq_mul]
    have h2 : (ndS : ℚ) * qMin (subcellVals x k nd Sub2Ind ndS m)
        ≤ ∑ i ∈ Finset.range ndS, x (k * nd + Sub2Ind m i) := by
      calc (ndS : ℚ) * qMin (subcellVals x k nd Sub2Ind ndS m)
          = ∑ _i ∈ Finset.range ndS, qMin (subcellVals x k nd Sub2Ind ndS m) := by
            rw [Finset.sum_const, Finset.card_range, nsmul_eq_mul]
        _ ≤ _ :=
            Finset.sum_le_sum fun i hi => qMin_le _ _
              (mem_subcellVals x k nd Sub2Ind ndS m i (Finset.mem_range.mp hi))
    constructor
    · rw [sumWeightsSubcellP]; linarith
    · rw [sumWeightsSubcellN]; linarith
  · have h : 0 ≤ rhoP z k nd :=
      Finset.sum_nonneg fun j _ => le_max_left 0 _
    linarith
  · have h : rhoN z k nd ≤ 0 :=
      Finset.sum_nonpos fun j _ => min_le_left 0 _
    linarith
  · have h : 0 ≤ sumFluctSubcellP x k nd Sub2Ind W ndS numSub :=
      Finset.sum_nonneg fun m _ => le_max_left 0 _
    linarith
  · have h : sumFluctSubcellN x k nd Sub2Ind W ndS numSub ≤ 0 :=
      Finset.sum_nonpos fun m _ => min_le_left 0 _
    linarith

/-- Witness for C6 at a concrete element. -/
theorem rd_denominators_w :
    ((0:ℕ) < 1) ∧
    (eps15 ≤ sumWeightsP oneVec 0 1 ∧ sumWeightsN oneVec 0 1 ≤ -eps15 ∧
    (∀ m, eps15 ≤ sumWeightsSubcellP oneVec 0 1 (fun _ _ => 0) 1 m ∧
      sumWeightsSubcellN oneVec 0 1 (fun _ _ => 0) 1 m ≤ -eps15) ∧
    0 < rhoP zeroVec 0 1 + eps15 ∧ rhoN zeroVec 0 1 - eps15 < 0 ∧
    0 < sumFluctSubcellP oneVec 0 1 (fun _ _ => 0) (fun _ _ => 0) 1 1
      + eps15 ∧
    sumFluctSubcellN oneVec 0 1 (fun _ _ => 0) (fun _ _ => 0) 1 1
      - eps15 < 0) :=
  ⟨Nat.zero_lt_one,
    rd_denominators oneVec zeroVec 0 1 (fun _ _ => 0) (fun _ _ => 0) 1 1
      Nat.zero_lt_one Nat.zero_lt_one⟩

/-! # Flux-stencil nonnegativity -/

/-- C10: in both execution modes `vn ≤ 0`, and therefore every entry of
`bdrInt` stays nonnegative under `ComputeFluxTerms`: starting from a
nonnegative value (it is zeroed before each assembly), each quadrature-point
accumulation adds `-(w·fw·shape_i·vn·shape_j) ≥ 0` whenever the quadrature
weights, face transformation weights, and shape values are nonnegative. -/
theorem bdrInt_nonneg (execMode : ℕ) (qps : List QuadPt) (bdrDof : ℕ → ℕ)
    (init : ℚ) (i j : ℕ) (hinit : 0 ≤ init)
    (hq : ∀ q ∈ qps, 0 ≤ q.w ∧ 0 ≤ q.fw ∧ ∀ d, 0 ≤ q.shape d) :
    (∀ m v, vnOf m v ≤ 0) ∧
    0 ≤ fluxTermsEntry execMode qps bdrDof init i j := by
  have hvn : ∀ (m : ℕ) (v : ℚ), vnOf m v ≤ 0 := by
    intro m v
    rw [vnOf]
    split_ifs
    · exact min_le_left 0 v
    · exact neg_nonpos.mpr (le_max_left 0 v)
  refine ⟨hvn, ?_⟩
  rw [fluxTermsEntry]
  have hsum : 0 ≤ (qps.map (fun q =>
      -(q.w * q.fw * q.shape (bdrDof i) * vnOf execMode q.vdotn
        * q.shape (bdrDof j)))).sum := by
    apply List.sum_nonneg
    intro a ha
    obtain ⟨q, hq', rfl⟩ := List.mem_map.mp ha
    obtain ⟨h1, h2, h3⟩ := hq q hq'
    have hp : 0 ≤ q.w * q.fw * q.shape (bdrDof i) * q.shape (bdrDof j) :=
      mul_nonneg (mul_nonneg (mul_nonneg h1 h2) (h3 _)) (h3 _)
    have hv := hvn execMode q.vdotn
    nlinarith [mul_nonneg hp (neg_nonneg.mpr hv)]
  linarith

/-- Witness for C10 at a concrete inflow quadrature point. -/
theorem bdrInt_nonneg_w :
    ((0:ℚ) ≤ 0) ∧
    (∀ q ∈ [QuadPt.mk 1 1 (-1) (fun _ => 1)],
      0 ≤ q.w ∧ 0 ≤ q.fw ∧ ∀ d, 0 ≤ q.shape d) ∧
    ((∀ m v, vnOf m v ≤ 0) ∧
      0 ≤ fluxTermsEntry 0 [QuadPt.mk 1 1 (-1) (fun _ => 1)]
        (fun _ => 0) 0 0 0) := by
  have hq : ∀ q ∈ [QuadPt.mk 1 1 (-1) (fun _ => (1:ℚ))],
      0 ≤ q.w ∧ 0 ≤ q.fw ∧ ∀ d, 0 ≤ q.shape d := by
    intro q hqm
    rw [List.mem_singleton] at hqm
    subst hqm
    exact ⟨by norm_num, by norm_num, fun d => by norm_num⟩
  exact ⟨le_rfl, hq,
    bdrInt_nonneg 0 [QuadPt.mk 1 1 (-1) (fun _ => 1)] (fun _ => 0) 0 0 0
      le_rfl hq⟩

/-! # Discrete upwinding -/

/-- C3 counterexample: the claimed diagonal identity
`D_ii = K_ii - Σ_{j≠i} D_ij` fails for `K = [[0,1],[-1,0]]` (fully stored):
the code produces `D_00 = K_00 - d_01 = -1`, while the claimed identity
would give `K_00 - D_01 = -2`. -/
theorem upwindD_diag_cex :
    upwindD 2 cexS cexK 0 0
      ≠ cexK 0 0 - ∑ j ∈ (Finset.range 2).filter (fun j => j ≠ 0),
          upwindD 2 cexS cexK 0 j := by
  have hd01 : dCoeff cexK 0 1 = 1 := by
    rw [dCoeff]
    norm_num [cexK, max_def]
  have hD01 : upwindD 2 cexS cexK 0 1 = 2 := by
    rw [upwindD]
    norm_num [cexS, cexK, hd01]
  have hD00 : upwindD 2 cexS cexK 0 0 = -1 := by
    rw [upwindD]
    rw [if_pos rfl, Finset.sum_filter]
    rw [Finset.sum_range_succ, Finset.sum_range_succ, Finset.sum_range_zero]
    norm_num [cexS, cexK, hd01]
  rw [hD00, Finset.sum_filter, Finset.sum_range_succ, Finset.sum_range_succ,
    Finset.sum_range_zero]
  norm_num [hD01, cexK]

/-- C3 (amended): for a finalized `K` with symmetric sparsity pattern and
stored diagonal, `ComputeDiscreteUpwindingMatrix` produces `D` with
`D_ij = K_ij + max(0, -K_ij, -K_ji) ≥ 0` on stored off-diagonal entries,
`D_ii = K_ii - Σ_{stored j≠i} (D_ij - K_ij)` (the increments `d_ij`, not
the entries `D_ij`, are subtracted), every row of `D` sums to the
corresponding row sum of `K`, and for `K` with zero row sums a constant
input `x ≡ c` yields `D·x = 0`. -/
theorem upwindD_props (n : ℕ) (S : ℕ → ℕ → Bool) (K : ℕ → ℕ → ℚ)
    (hSsym : ∀ i j, S i j = S j i) (hSdiag : ∀ i, S i i = true)
    (hK0 : ∀ i j, S i j = false → K i j = 0) :
    (∀ i j, i ≠ j → S i j = true →
      upwindD n S K i j = K i j + dCoeff K i j ∧ 0 ≤ upwindD n S K i j) ∧
    (∀ i j, i ≠ j → S i j = false → upwindD n S K i j = 0) ∧
    (∀ i, upwindD n S K i i
      = K i i - ∑ j ∈ (Finset.range n).filter
          (fun j => j ≠ i ∧ S i j = true), (upwindD n S K i j - K i j)) ∧
    (∀ i, i < n → ∑ j ∈ Finset.range n, upwindD n S K i j
      = ∑ j ∈ Finset.range n, K i j) ∧
    ((∀ i, i < n → ∑ j ∈ Finset.range n, K i j = 0) →
      ∀ (c : ℚ) (i), i < n →
        ∑ j ∈ Finset.range n, upwindD n S K i j * c = 0) := by
  have hoff : ∀ i j, i ≠ j → S i j = true →
      upwindD n S K i j = K i j + dCoeff K i j ∧ 0 ≤ upwindD n S K i j := by
    intro i j hij hS
    have heq : upwindD n S K i j = K i j + dCoeff K i j := by
      rw [upwindD, if_neg hij, if_pos hS]
    refine ⟨heq, ?_⟩
    rw [heq]
    have h1 : -K i j ≤ dCoeff K i j :=
      le_trans (le_max_right 0 (-K i j)) (le_max_left _ _)
    linarith
  have hzero : ∀ i j, i ≠ j → S i j = false → upwindD n S K i j = 0 := by
    intro i j hij hS
    rw [upwindD, if_neg hij, if_neg (by rw [hS]; exact Bool.false_ne_true)]
  have hdiag : ∀ i, upwindD n S K i i
      = K i i - ∑ j ∈ (Finset.range n).filter
          (fun j => j ≠ i ∧ S i j = true), (upwindD n S K i j - K i j) := by
    intro i
    have hc : ∀ j ∈ (Finset.range n).filter
        (fun j => j ≠ i ∧ S i j = true),
        upwindD n S K i j - K i j = dCoeff K i j := by
      intro j hj
      obtain ⟨-, hji, hSj⟩ := Finset.mem_filter.mp hj
      rw [(hoff i j (Ne.symm hji) hSj).1]
      ring
    rw [Finset.sum_congr rfl hc, upwindD, if_pos rfl]
  have hrow : ∀ i, i < n → ∑ j ∈ Finset.range n, upwindD n S K i j
      = ∑ j ∈ Finset.range n, K i j := by
    intro i hi
    have himem : i ∈ Finset.range n := Finset.mem_range.mpr hi
    rw [← Finset.add_sum_erase _ (fun j => upwindD n S K i j) himem,
      ← Finset.add_sum_erase _ (fun j => K i j) himem]
    have herase : (Finset.range n).erase i
        = (Finset.range n).filter (fun j => j ≠ i) :=
      (Finset.filter_ne' _ _).symm
    have hFsplit : ∀ g : ℕ → ℚ, ∑ j ∈ (Finset.range n).erase i, g j
        = (∑ j ∈ ((Finset.range n).erase i).filter
            (fun j => S i j = true), g j)
          + ∑ j ∈ ((Finset.range n).erase i).filter
              (fun j => ¬ S i j = true), g j :=
      fun g => (Finset.sum_filter_add_sum_filter_not _ _ g).symm
    have hFeq : ((Finset.range n).erase i).filter (fun j => S i j = true)
        = (Finset.range n).filter (fun j => j ≠ i ∧ S i j = true) := by
      rw [herase, Finset.filter_filter]
    have hDnot : ∑ j ∈ ((Finset.range n).erase i).filter
        (fun j => ¬ S i j = true), upwindD n S K i j = 0 := by
      apply Finset.sum_eq_zero
      intro j hj
      obtain ⟨hje, hSj⟩ := Finset.mem_filter.mp hj
      exact hzero i j (Ne.symm (Finset.mem_erase.mp hje).1)
        (Bool.not_eq_true _ ▸ hSj)
    have hKnot : ∑ j ∈ ((Finset.range n).erase i).filter
        (fun j => ¬ S i j = true), K i j = 0 := by
      apply Finset.sum_eq_zero
      intro j hj
      obtain ⟨-, hSj⟩ := Finset.mem_filter.mp hj
      exact hK0 i j (Bool.not_eq_true _ ▸ hSj)
    have hDS : ∑ j ∈ ((Finset.range n).erase i).filter
        (fun j => S i j = true), upwindD n S K i j
        = (∑ j ∈ ((Finset.range n).erase i).filter
            (fun j => S i j = true), K i j)
          + ∑ j ∈ ((Finset.range n).erase i).filter
              (fun j => S i j = true), dCoeff K i j := by
      rw [← Finset.sum_add_distrib]
      apply Finset.sum_congr rfl
      intro j hj
      obtain ⟨hje, hSj⟩ := Finset.mem_filter.mp hj
      exact (hoff i j (Ne.symm (Finset.mem_erase.mp hje).1) hSj).1
    have hdiagval : upwindD n S K i i
        = K i i - ∑ j ∈ ((Finset.range n).erase i).filter
            (fun j => S i j = true), dCoeff K i j := by
      rw [upwindD, if_pos rfl, hFeq]
    rw [hFsplit (fun j => upwindD n S K i j), hFsplit (fun j => K i j),
      hDnot, hKnot, hDS, hdiagval]
    ring
  refine ⟨hoff, hzero, hdiag, hrow, ?_⟩
  intro hrows c i hi
  rw [← Finset.sum_mul, hrow i hi, hrows i hi, zero_mul]

/-- Witness for the amended C3 on the concrete fully stored `2×2` matrix. -/
theorem upwindD_props_w :
    (∀ i j, cexS i j = cexS j i) ∧ (∀ i, cexS i i = true) ∧
    ((∀ i j, i ≠ j → cexS i j = true →
      upwindD 2 cexS cexK i j = cexK i j + dCoeff cexK i j ∧
        0 ≤ upwindD 2 cexS cexK i j) ∧
    (∀ i j, i ≠ j → cexS i j = false → upwindD 2 cexS cexK i j = 0) ∧
    (∀ i, upwindD 2 cexS cexK i i
      = cexK i i - ∑ j ∈ (Finset.range 2).filter
          (fun j => j ≠ i ∧ cexS i j = true),
          (upwindD 2 cexS cexK i j - cexK i j)) ∧
    (∀ i, i < 2 → ∑ j ∈ Finset.range 2, upwindD 2 cexS cexK i j
      = ∑ j ∈ Finset.range 2, cexK i j) ∧
    ((∀ i, i < 2 → ∑ j ∈ Finset.range 2, cexK i j = 0) →
      ∀ (c : ℚ) (i), i < 2 →
        ∑ j ∈ Finset.range 2, upwindD 2 cexS cexK i j * c = 0)) := by
  refine ⟨fun i j => rfl, fun i => rfl, ?_⟩
  exact upwindD_props 2 cexS cexK (fun i j => rfl) (fun i => rfl)
    (fun i j h => by simp [cexS] at h)

/-! # FillNeighborDofs: exterior slots -/

/-- C7 counterexample: on the two-element 1-D order-1 mesh, the exterior
right slot of element 1 yields `NbrDof(1,1,0) = -1*2 + BdrDofs(0,0) = -2`,
not `-1`: in 1-D the code computes `nbr*nd + BdrDofs(0,(i+1)%2)` without
guarding `nbr < 0`. -/
theorem nbrDof_exterior_cex :
    twoNbr 1 1 = -1 ∧ nbrDof1D 2 segBdrDofs twoNbr 1 1 = -2 ∧
    nbrDof1D 2 segBdrDofs twoNbr 1 1 ≠ -1 := by
  refine ⟨by decide, ?_, ?_⟩ <;> decide

/-- C7 (amended): an exterior boundary slot produces `NbrDof = -1` in 2-D
(the only dimension with an explicit exterior guard); in 1-D it produces
`-nd + BdrDofs(0,(i+1)%2)` and in 3-D `-nd +` (a face-dof offset `< nd`),
both strictly negative (so every `idx < 0` consumer treats them as
exterior) but in general different from `-1`. -/
theorem nbrDof_exterior :
    (∀ (nd numBdrs numDofs : ℕ) (BdrDofs : ℕ → ℕ → ℕ)
       (nbrElem : ℕ → ℕ → ℤ) (elemEdges : ℕ → ℕ → ℕ) (k i j : ℕ),
       nbrElem k i < 0 →
       nbrDof2D nd numBdrs numDofs BdrDofs nbrElem elemEdges k i j = -1) ∧
    (∀ (nd : ℕ) (BdrDofs : ℕ → ℕ → ℕ) (nbrElem : ℕ → ℕ → ℤ) (k i : ℕ),
       nbrElem k i = -1 → BdrDofs 0 ((i + 1) % 2) < nd →
       nbrDof1D nd BdrDofs nbrElem k i
         = -(nd : ℤ) + BdrDofs 0 ((i + 1) % 2) ∧
       nbrDof1D nd BdrDofs nbrElem k i < 0) ∧
    (∀ (p : ℕ) (nbrElem : ℕ → ℕ → ℤ) (k i j : ℕ),
       nbrElem k i = -1 → i < 6 → j < (p + 1) ^ 2 →
       nbrDof3D ((p + 1) ^ 3) p nbrElem k i j < 0) := by
  refine ⟨?_, ?_, ?_⟩
  · intro nd numBdrs numDofs BdrDofs nbrElem elemEdges k i j h
    simp only [nbrDof2D]
    rw [if_neg (not_le.mpr h)]
  · intro nd BdrDofs nbrElem k i h hB
    rw [nbrDof1D, h]
    constructor
    · push_cast; ring
    · have hc : (BdrDofs 0 ((i + 1) % 2) : ℤ) < (nd : ℤ) := by
        exact_mod_cast hB
      push_cast
      linarith
  · intro p nbrElem k i j h hi hj
    have hq : j / (p + 1) < p + 1 := by
      rw [Nat.div_lt_iff_lt_mul (Nat.succ_pos p)]
      calc j < (p + 1) ^ 2 := hj
        _ = (p + 1) * (p + 1) := by ring
    have hr : j % (p + 1) < p + 1 := Nat.mod_lt _ (Nat.succ_pos p)
    have hqz : (j / (p + 1) : ℤ) ≤ (p : ℤ) := by
      have : j / (p + 1) ≤ p := Nat.lt_succ_iff.mp hq
      exact_mod_cast this
    have hrz : (j % (p + 1) : ℤ) ≤ (p : ℤ) := by
      have : j % (p + 1) ≤ p := Nat.lt_succ_iff.mp hr
      exact_mod_cast this
    have hjz : (j : ℤ) < ((p : ℤ) + 1) ^ 2 := by exact_mod_cast hj
    have hpz : (0 : ℤ) ≤ (p : ℤ) := Int.natCast_nonneg p
    interval_cases i <;>
      simp only [nbrDof3D] <;>
      norm_num <;>
      rw [h] <;>
      push_cast <;>
      nlinarith [sq_nonneg ((p : ℤ) + 1),
        mul_nonneg (mul_nonneg (add_nonneg hpz zero_le_one)
          (add_nonneg hpz zero_le_one))
          (sub_nonneg.mpr hqz),
        mul_nonneg (add_nonneg hpz zero_le_one) (sub_nonneg.mpr hqz)]

/-- Witness for the amended C7, applying all three dimensional cases at
concrete exterior slots. -/
theorem nbrDof_exterior_w :
    nbrDof2D 4 4 2 (fun _ _ => 0) (fun _ _ => -1) (fun _ _ => 0) 0 0 0
      = -1 ∧
    nbrDof1D 2 segBdrDofs twoNbr 1 1 < 0 ∧
    nbrDof3D ((1 + 1) ^ 3) 1 (fun _ _ => -1) 0 0 0 < 0 := by
  refine ⟨?_, ?_, ?_⟩
  · exact nbrDof_exterior.1 4 4 2 (fun _ _ => 0) (fun _ _ => -1)
      (fun _ _ => 0) 0 0 0 (by decide)
  · exact (nbrDof_exterior.2.1 2 segBdrDofs twoNbr 1 1 (by decide)
      (by decide)).2
  · exact nbrDof_exterior.2.2 1 (fun _ _ => -1) 0 0 0 rfl (by decide)
      (by decide)

/-! # GetCommonElem: normal returns and the fatal multiple-match error -/

lemma gceStep_eq (faceOf : ℤ → ℕ → ℕ) (faceElems : ℕ → ℤ × ℤ)
    (el el1 el2 : ℤ) (st : Option ℤ) (ij : ℕ × ℕ) :
    gceStep faceOf faceElems el el1 el2 st ij =
      if gceMatchB faceOf faceElems el el1 el2 ij then
        (match st with
         | none => Except.ok (some (nbrOfSlot faceOf faceElems el1 ij.1))
         | some _ => Except.error ())
      else Except.ok st := by
  simp only [gceStep, gceMatchB]
  by_cases h1 : nbrOfSlot faceOf faceElems el1 ij.1 < 0
  · rw [if_pos h1]
    have hn : ¬ (0 ≤ nbrOfSlot faceOf faceElems el1 ij.1) := not_le.mpr h1
    simp [hn]
  · rw [if_neg h1]
    by_cases h2 : nbrOfSlot faceOf faceElems el2 ij.2 < 0
    · rw [if_pos h2]
      have hn : ¬ (0 ≤ nbrOfSlot faceOf faceElems el2 ij.2) := not_le.mpr h2
      simp [hn]
    · rw [if_neg h2]
      by_cases h3 : nbrOfSlot faceOf faceElems el1 ij.1
          = nbrOfSlot faceOf faceElems el2 ij.2 ∧
          nbrOfSlot faceOf faceElems el1 ij.1 ≠ el
      · rw [if_pos h3]
        have hcond : (decide (0 ≤ nbrOfSlot faceOf faceElems el1 ij.1) &&
            decide (0 ≤ nbrOfSlot faceOf faceElems el2 ij.2) &&
            decide (nbrOfSlot faceOf faceElems el1 ij.1
              = nbrOfSlot faceOf faceElems el2 ij.2) &&
            decide (nbrOfSlot faceOf faceElems el1 ij.1 ≠ el)) = true := by
          simp only [Bool.and_eq_true, decide_eq_true_eq]
          exact ⟨⟨⟨not_lt.mp h1, not_lt.mp h2⟩, h3.1⟩, h3.2⟩
        rw [if_pos hcond]
      · rw [if_neg h3]
        rcases not_and_or.mp h3 with h | h <;> simp [h]

lemma gceFold_some (faceOf : ℤ → ℕ → ℕ) (faceElems : ℕ → ℤ × ℤ)
    (el el1 el2 : ℤ) (l : List (ℕ × ℕ)) (c : ℤ) :
    l.foldlM (gceStep faceOf faceElems el el1 el2) (some c) =
      if l.filter (gceMatchB faceOf faceElems el el1 el2) = []
      then Except.ok (some c) else Except.error () := by
  induction l with
  | nil => rfl
  | cons ij l ih =>
    rw [List.foldlM_cons, gceStep_eq]
    by_cases hb : gceMatchB faceOf faceElems el el1 el2 ij
    · rw [if_pos hb, List.filter_cons_of_pos hb,
        if_neg (List.cons_ne_nil _ _)]
      rfl
    · rw [if_neg hb, List.filter_cons_of_neg hb]
      exact ih

lemma gceFold_none (faceOf : ℤ → ℕ → ℕ) (faceElems : ℕ → ℤ × ℤ)
    (el el1 el2 : ℤ) (l : List (ℕ × ℕ)) :
    l.foldlM (gceStep faceOf faceElems el el1 el2) none =
      match l.filter (gceMatchB faceOf faceElems el el1 el2) with
      | [] => Except.ok none
      | ij :: rest =>
          if rest = []
          then Except.ok (some (nbrOfSlot faceOf faceElems el1 ij.1))
          else Except.error () := by
  induction l with
  | nil => rfl
  | cons ij l ih =>
    rw [List.foldlM_cons, gceStep_eq]
    by_cases hb : gceMatchB faceOf faceElems el el1 el2 ij
    · rw [if_pos hb, List.filter_cons_of_pos hb]
      exact gceFold_some faceOf faceElems el el1 el2 l
        (nbrOfSlot faceOf faceElems el1 ij.1)
    · rw [if_neg hb, List.filter_cons_of_neg hb]
      exact ih

/-- C8: `GetCommonElem(el, el1, el2)` returns `-1` when `el1 < 0` or
`el2 < 0`; returns `-1` when no slot pair registers a common face-neighbor
distinct from `el`; returns that neighbor when exactly one slot pair
registers one; and hits the fatal `mfem_error` (modelled as
`Except.error ()`) exactly when a second match is found after the first,
i.e. when at least two slot pairs register. -/
theorem getCommonElem_cases (numBdrs : ℕ) (faceOf : ℤ → ℕ → ℕ)
    (faceElems : ℕ → ℤ × ℤ) (el el1 el2 : ℤ) :
    (min el1 el2 < 0 →
      getCommonElem numBdrs faceOf faceElems el el1 el2 = Except.ok (-1)) ∧
    (0 ≤ min el1 el2 →
      gceMatches numBdrs faceOf faceElems el el1 el2 = [] →
      getCommonElem numBdrs faceOf faceElems el el1 el2 = Except.ok (-1)) ∧
    (∀ i j, 0 ≤ min el1 el2 →
      gceMatches numBdrs faceOf faceElems el el1 el2 = [(i, j)] →
      getCommonElem numBdrs faceOf faceElems el el1 el2
        = Except.ok (nbrOfSlot faceOf faceElems el1 i)) ∧
    (0 ≤ min el1 el2 →
      2 ≤ (gceMatches numBdrs faceOf faceElems el el1 el2).length →
      getCommonElem numBdrs faceOf faceElems el el1 el2
        = Except.error ()) := by
  have hfold := gceFold_none faceOf faceElems el el1 el2 (gcePairs numBdrs)
  refine ⟨?_, ?_, ?_, ?_⟩
  · intro hneg
    rw [getCommonElem, if_pos hneg]
  · intro hpos hmat
    rw [gceMatches] at hmat
    rw [getCommonElem, if_neg (not_lt.mpr hpos), hfold, hmat]
  · intro i j hpos hmat
    rw [gceMatches] at hmat
    rw [getCommonElem, if_neg (not_lt.mpr hpos), hfold, hmat]
    simp
  · intro hpos hlen
    rw [gceMatches] at hlen
    rw [getCommonElem, if_neg (not_lt.mpr hpos), hfold]
    rcases hmat : (gcePairs numBdrs).filter
        (gceMatchB faceOf faceElems el el1 el2) with - | ⟨ij, rest⟩
    · rw [hmat] at hlen; simp at hlen
    · rw [hmat] at hlen
      have hrest : rest ≠ [] := by
        intro hr
        rw [hr] at hlen
        simp at hlen
      simp only [if_neg hrest]

/-- Witness for C8 on the 2×2 quad patch: elements `1` and `2` have the
single common neighbor `3 ≠ 0`, found at slot pair `(2,2)`. -/
theorem getCommonElem_cases_w :
    gceMatches 4 patchFaceOf patchFaceElems 0 1 2 = [(2, 2)] ∧
    getCommonElem 4 patchFaceOf patchFaceElems 0 1 2 = Except.ok 3 := by
  have hmat : gceMatches 4 patchFaceOf patchFaceElems 0 1 2 = [(2, 2)] := by
    decide
  refine ⟨hmat, ?_⟩
  have h := (getCommonElem_cases 4 patchFaceOf patchFaceElems 0 1 2).2.2.1
    2 2 (by decide) hmat
  have hn : nbrOfSlot patchFaceOf patchFaceElems 1 2 = 3 := by decide
  rw [hn] at h
  exact h

/-! # The uniform-state scenario on the two-element 1-D mesh -/

lemma twoD_rowsums :
    (∑ j ∈ Finset.range (2 * 2), twoD 0 j * oneVec j) = 0 ∧
    (∑ j ∈ Finset.range (2 * 2), twoD 1 j * oneVec j) = 0 ∧
    (∑ j ∈ Finset.range (2 * 2), twoD 2 j * oneVec j) = 0 ∧
    (∑ j ∈ Finset.range (2 * 2), twoD 3 j * oneVec j) = 0 := by
  refine ⟨?_, ?_, ?_, ?_⟩ <;>
    norm_num [twoD, upwindD, twoS, twoK, dCoeff, oneVec, Finset.sum_filter,
      Finset.sum_range_succ, max_def]

lemma twoZ_vals :
    zVec (2 * 2) twoK oneVec 0 = 0 ∧ zVec (2 * 2) twoK oneVec 1 = 0 ∧
    zVec (2 * 2) twoK oneVec 2 = 0 ∧ zVec (2 * 2) twoK oneVec 3 = 0 := by
  refine ⟨?_, ?_, ?_, ?_⟩ <;>
    norm_num [zVec, twoK, oneVec, Finset.sum_range_succ]

lemma fluxLump_two :
    fluxLumpTotal 2 2 2 1 segBdrDofs twoNbrDof twoBdrInt oneVec
      (fun _ => 0) 0 = -1 ∧
    fluxLumpTotal 2 2 2 1 segBdrDofs twoNbrDof twoBdrInt oneVec
      (fun _ => 0) 1 = 0 ∧
    fluxLumpTotal 2 2 2 1 segBdrDofs twoNbrDof twoBdrInt oneVec
      (fun _ => 0) 2 = 0 ∧
    fluxLumpTotal 2 2 2 1 segBdrDofs twoNbrDof twoBdrInt oneVec
      (fun _ => 0) 3 = 0 := by
  refine ⟨?_, ?_, ?_, ?_⟩ <;>
    norm_num [fluxLumpTotal, fluxLumpContrib, xDiffF, twoNbrDof, nbrDof1D,
      segBdrDofs, twoNbr, twoBdrInt, oneVec, Finset.sum_range_succ]

lemma fluxLump_per :
    fluxLumpTotal 2 2 2 1 segBdrDofs perNbrDof twoBdrInt oneVec
      (fun _ => 0) 0 = 0 ∧
    fluxLumpTotal 2 2 2 1 segBdrDofs perNbrDof twoBdrInt oneVec
      (fun _ => 0) 1 = 0 ∧
    fluxLumpTotal 2 2 2 1 segBdrDofs perNbrDof twoBdrInt oneVec
      (fun _ => 0) 2 = 0 ∧
    fluxLumpTotal 2 2 2 1 segBdrDofs perNbrDof twoBdrInt oneVec
      (fun _ => 0) 3 = 0 := by
  refine ⟨?_, ?_, ?_, ?_⟩ <;>
    norm_num [fluxLumpTotal, fluxLumpContrib, xDiffF, perNbrDof, nbrDof1D,
      segBdrDofs, perNbr, twoBdrInt, oneVec, Finset.sum_range_succ]

/-- C9 counterexample: on the 1-D two-element order-1 mesh with
`x = [1,1,1,1]`, `b = 0` and velocity `1`, both low-order branches produce
`y(0) = -4 ≠ 0` at the inflow boundary dof: its neighbor dof is exterior,
so flux lumping uses `xNeighbor = 0` and adds
`bdrInt(0,0,0)·(0 - 1) = -1`, divided by the lumped mass `1/4`.  (`D` is
taken as the discrete upwinding of the element convection matrix, which has
zero row sums — the case most favorable to the claim.)  The uniform state
is therefore not a fixed point of either branch. -/
theorem lowOrder_uniform_cex :
    lowOrderPDU 2 2 2 1 segBdrDofs twoNbrDof twoBdrInt twoD zeroVec
      twoLumpedM oneVec true 0 = -4 ∧
    lowOrderRD 2 2 2 1 segBdrDofs twoNbrDof twoBdrInt twoK zeroVec
      twoLumpedM oneVec (fun _ _ => 0) (fun _ _ _ => 0) 0 0 false 0 = -4 ∧
    (-4 : ℚ) ≠ 0 := by
  obtain ⟨hD0, -, -, -⟩ := twoD_rowsums
  obtain ⟨hz0, hz1, -, -⟩ := twoZ_vals
  obtain ⟨hf0, -, -, -⟩ := fluxLump_two
  refine ⟨?_, ?_, by norm_num⟩
  · norm_num [lowOrderPDU, hD0, hf0, zeroVec, twoLumpedM]
  · norm_num [lowOrderRD, hz0, hz1, hf0, zeroVec, twoLumpedM, eps15,
      Finset.sum_range_succ]

/-- C9 (amended): on the same scenario the low-order rate vanishes at every
dof except the inflow boundary dof `0`, for both branches; at dof `0` both
branches produce `-bdrInt(0,0,0)/lumpedM(0) = -4`, the flux-lumping
contribution of the exterior (inflow) slot where `xNeighbor` is
approximated by `0`.  On the periodic variant of the same mesh (every
neighbor dof present) the uniform state is a fixed point of both branches:
`y = 0` at every dof. -/
theorem lowOrder_uniform_amended :
    (lowOrderPDU 2 2 2 1 segBdrDofs twoNbrDof twoBdrInt twoD zeroVec
      twoLumpedM oneVec true 1 = 0 ∧
     lowOrderPDU 2 2 2 1 segBdrDofs twoNbrDof twoBdrInt twoD zeroVec
      twoLumpedM oneVec true 2 = 0 ∧
     lowOrderPDU 2 2 2 1 segBdrDofs twoNbrDof twoBdrInt twoD zeroVec
      twoLumpedM oneVec true 3 = 0) ∧
    (lowOrderRD 2 2 2 1 segBdrDofs twoNbrDof twoBdrInt twoK zeroVec
      twoLumpedM oneVec (fun _ _ => 0) (fun _ _ _ => 0) 0 0 false 1 = 0 ∧
     lowOrderRD 2 2 2 1 segBdrDofs twoNbrDof twoBdrInt twoK zeroVec
      twoLumpedM oneVec (fun _ _ => 0) (fun _ _ _ => 0) 0 0 false 2 = 0 ∧
     lowOrderRD 2 2 2 1 segBdrDofs twoNbrDof twoBdrInt twoK zeroVec
      twoLumpedM oneVec (fun _ _ => 0) (fun _ _ _ => 0) 0 0 false 3 = 0) ∧
    lowOrderPDU 2 2 2 1 segBdrDofs twoNbrDof twoBdrInt twoD zeroVec
      twoLumpedM oneVec true 0 = -(twoBdrInt 0 0 0 / twoLumpedM 0) ∧
    (lowOrderPDU 2 2 2 1 segBdrDofs perNbrDof twoBdrInt twoD zeroVec
      twoLumpedM oneVec true 0 = 0 ∧
     lowOrderPDU 2 2 2 1 segBdrDofs perNbrDof twoBdrInt twoD zeroVec
      twoLumpedM oneVec true 1 = 0 ∧
     lowOrderPDU 2 2 2 1 segBdrDofs perNbrDof twoBdrInt twoD zeroVec
      twoLumpedM oneVec true 2 = 0 ∧
     lowOrderPDU 2 2 2 1 segBdrDofs perNbrDof twoBdrInt twoD zeroVec
      twoLumpedM oneVec true 3 = 0) ∧
    (lowOrderRD 2 2 2 1 segBdrDofs perNbrDof twoBdrInt twoK zeroVec
      twoLumpedM oneVec (fun _ _ => 0) (fun _ _ _ => 0) 0 0 false 0 = 0 ∧
     lowOrderRD 2 2 2 1 segBdrDofs perNbrDof twoBdrInt twoK zeroVec
      twoLumpedM oneVec (fun _ _ => 0) (fun _ _ _ => 0) 0 0 false 1 = 0 ∧
     lowOrderRD 2 2 2 1 segBdrDofs perNbrDof twoBdrInt twoK zeroVec
      twoLumpedM oneVec (fun _ _ => 0) (fun _ _ _ => 0) 0 0 false 2 = 0 ∧
     lowOrderRD 2 2 2 1 segBdrDofs perNbrDof twoBdrInt twoK zeroVec
      twoLumpedM oneVec (fun _ _ => 0) (fun _ _ _ => 0) 0 0 false 3 = 0) := by
  obtain ⟨hD0, hD1, hD2, hD3⟩ := twoD_rowsums
  obtain ⟨hz0, hz1, hz2, hz3⟩ := twoZ_vals
  obtain ⟨hf0, hf1, hf2, hf3⟩ := fluxLump_two
  obtain ⟨hp0, hp1, hp2, hp3⟩ := fluxLump_per
  refine ⟨⟨?_, ?_, ?_⟩, ⟨?_, ?_, ?_⟩, ?_, ⟨?_, ?_, ?_, ?_⟩,
    ⟨?_, ?_, ?_, ?_⟩⟩ <;>
    norm_num [lowOrderPDU, lowOrderRD, hD0, hD1, hD2, hD3, hz0, hz1, hz2,
      hz3, hf0, hf1, hf2, hf3, hp0, hp1, hp2, hp3, zeroVec, twoLumpedM,
      twoBdrInt, eps15, Finset.sum_range_succ]

end Remhos
